import Mathlib

/-!
Verification development for the GMS Vessel Tracker destination decoder and
its surrounding Express utilities.

The destination decoder (`helper/ais_port_matcher.py`) is documented with
per-function source excerpts in the repository's AI-Model README; those
excerpts are embedded here function by function.  The overall
`match_destination` pipeline body and a few small helpers
(`_normalize_text`, the index for country names, the stage thresholds
wiring) are only described, not listed, in the repository; their
definitions below are marked `Modelled from the spec:`.

Conventions:
* Python/JS strings are `String` (a list of `Char`); the text-processing
  primitives are written over `List Char` and wrapped.
* Python floats are embedded as `ℚ` (every quantity computed by the scorer
  is an exact ratio, so the embedding is exact on the decision thresholds).
* Regex operations (`re.sub`, `re.split`) are embedded as direct scanning
  functions implementing the same match semantics for the concrete
  patterns the source uses.  `\b` word boundaries use the ASCII word
  characters `[A-Za-z0-9_]`, which agrees with Python on the data involved.
-/

/-- ASCII word character, the `\w` class used by Python's `\b` word boundary. -/
def isWordChar (c : Char) : Bool := c.isAlphanum || c = '_'

/-- Whitespace as matched by the `\s` class in `re.sub(r'\s+', ' ', ...)`
and stripped by `str.strip()`. -/
def isPySpace (c : Char) : Bool :=
  c = ' ' || c = '\t' || c = '\n' || c = '\r' || c = '\x0b' || c = '\x0c'

/-- Uppercase ASCII letter. -/
def isUpperAlpha (c : Char) : Bool := 'A' ≤ c && c ≤ 'Z'

/-- Embedding of Python `str.upper()` / JS `toUpperCase()` (ASCII data). -/
def upperL (l : List Char) : List Char := l.map Char.toUpper

/-- Embedding of Python `str.lower()` / JS `toLowerCase()` (ASCII data). -/
def lowerL (l : List Char) : List Char := l.map Char.toLower

/-- Embedding of Python `str.strip()` (also JS `trim()`): drop whitespace
from both ends. -/
def stripL (l : List Char) : List Char :=
  ((l.dropWhile isPySpace).reverse.dropWhile isPySpace).reverse

/-- String wrapper for `stripL`. -/
def pyStrip (s : String) : String := String.mk (stripL s.toList)

/-- String wrapper for `upperL`. -/
def pyUpper (s : String) : String := String.mk (upperL s.toList)

/-- String wrapper for `lowerL`. -/
def pyLower (s : String) : String := String.mk (lowerL s.toList)

/-- Embedding of the Python substring test `needle in hay`
(and JS `String.prototype.includes`). -/
def substrB (needle : List Char) : List Char → Bool
  | [] => needle.isPrefixOf []
  | c :: rest => needle.isPrefixOf (c :: rest) || substrB needle rest

/-!  ### `_remove_noise` (AI-Model README, port matcher Stage 2 excerpt)

```python
def _remove_noise(self, text: str) -> str:
    noise_words = [
        'TBA', 'ANCH', 'ANCHORING', 'BUNKERING', 'OPL',
        'FOR ORDER', 'FOR ORDERS', 'ORDERS', 'UNKNOWN'
    ]
    text = text.upper()
    text = re.sub(r'\([^)]*\)', '', text)            # Remove brackets
    text = re.sub(r'[<>=>|/\\._\-]+', ' ', text)     # Remove symbols
    for noise in noise_words:
        text = re.sub(rf'\b{noise}\b', '', text)
    return re.sub(r'\s+', ' ', text).strip()
```
-/

/-- Noise-word list of `_remove_noise`. -/
def NOISE_WORDS : List String :=
  ["TBA", "ANCH", "ANCHORING", "BUNKERING", "OPL",
   "FOR ORDER", "FOR ORDERS", "ORDERS", "UNKNOWN"]

/-- Scanner for `re.sub(r'\([^)]*\)', '', text)`.  The second argument is
`none` outside a parenthesised group, and `some pend` (reversed pending
characters, starting with the opening paren) inside one; a group that never
closes is emitted verbatim, matching the regex (which requires a `)`). -/
def rpAux : List Char → Option (List Char) → List Char
  | [], none => []
  | [], some pend => pend.reverse
  | c :: rest, none =>
    if c = '(' then rpAux rest (some [c]) else c :: rpAux rest none
  | c :: rest, some pend =>
    if c = ')' then rpAux rest none else rpAux rest (some (c :: pend))

/-- Embedding of `re.sub(r'\([^)]*\)', '', text)`. -/
def removeParens (l : List Char) : List Char := rpAux l none

/-- Character class of `re.sub(r'[<>=>|/\\._\-]+', ' ', text)`. -/
def isSymChar (c : Char) : Bool :=
  c = '<' || c = '>' || c = '=' || c = '|' || c = '/' || c = '\\' ||
  c = '.' || c = '_' || c = '-'

/-- Scanner for `re.sub(r'[<>=>|/\\._\-]+', ' ', text)`: a maximal run of
symbol characters becomes one space.  The flag records whether the previous
character belonged to a symbol run. -/
def csAux : List Char → Bool → List Char
  | [], _ => []
  | c :: rest, inRun =>
    if isSymChar c then
      if inRun then csAux rest true else ' ' :: csAux rest true
    else c :: csAux rest false

/-- Embedding of `re.sub(r'[<>=>|/\\._\-]+', ' ', text)`. -/
def collapseSyms (l : List Char) : List Char := csAux l false

/-- Scanner for `re.sub(r'\s+', ' ', text)`. -/
def cwAux : List Char → Bool → List Char
  | [], _ => []
  | c :: rest, inRun =>
    if isPySpace c then
      if inRun then cwAux rest true else ' ' :: cwAux rest true
    else c :: cwAux rest false

/-- Embedding of `re.sub(r'\s+', ' ', text)`. -/
def collapseWs (l : List Char) : List Char := cwAux l false

/-- Head of the remaining input is a word character (used for the trailing
`\b` of a pattern that ends in a word character). -/
def headIsWord : List Char → Bool
  | [] => false
  | c :: _ => isWordChar c

/-- Scanner for `re.sub(rf'\b{w}\b', '', text)` where `w` starts and ends
with a word character (true of every noise word).  `prevW` records whether
the character just before the current position in the original text is a
word character (matches are found on the original text, left to right,
non-overlapping).  A match drops its first character at once and leaves
`skip = w.length - 1` further characters to drop; while `skip > 0` the
scanner silently consumes them, and because `w` ends in a word character
the position after a match resumes with `prevW = true`. -/
def swAux (w : List Char) : List Char → Bool → Nat → List Char
  | [], _, _ => []
  | _ :: rest, _, skip + 1 => swAux w rest true skip
  | c :: rest, prevW, 0 =>
    if w ≠ [] && !prevW && w.isPrefixOf (c :: rest) &&
        !headIsWord ((c :: rest).drop w.length) then
      swAux w rest true (w.length - 1)
    else c :: swAux w rest (isWordChar c) 0

/-- Embedding of `re.sub(rf'\b{w}\b', '', text)` for a word-bounded literal
`w` that starts and ends with word characters. -/
def subWord (w : List Char) (l : List Char) : List Char := swAux w l false 0

/-- Whether a whole-word occurrence of `w` starts at some position of the
input: the scanner's match condition fires somewhere.  `prevW` is the
wordness of the character before the current position, as in `swAux`. -/
def hwOcc (w : List Char) : List Char → Bool → Bool
  | [], _ => false
  | c :: rest, prevW =>
    (w ≠ [] && !prevW && w.isPrefixOf (c :: rest) &&
      !headIsWord ((c :: rest).drop w.length)) || hwOcc w rest (isWordChar c)

/-- Embedding of `_remove_noise` (see the quoted excerpt above): upper-case,
drop parenthesised groups, collapse symbol runs to spaces, delete each noise
word on word boundaries in list order, collapse whitespace, strip. -/
def remove_noise (s : String) : String :=
  String.mk (stripL (collapseWs
    (NOISE_WORDS.foldl (fun acc w => subWord w.toList acc)
      (collapseSyms (removeParens (upperL s.toList))))))

/-!  ### `_extract_destination_from_route` (README, Stage 1 excerpt)

```python
def _extract_destination_from_route(self, text: str) -> str:
    arrows = ['<>', '>>', '-->', '=>', '->', '>']
    for arrow in arrows:
        if arrow in text:
            parts = text.split(arrow)
            return parts[-1].strip()  # Take last part
    if re.search(r'\bTO\b', text, re.IGNORECASE):
        parts = re.split(r'\bTO\b', text, flags=re.IGNORECASE)
        return parts[-1].strip()
    return text
```
-/

/-- Ordered separator list of `_extract_destination_from_route`. -/
def ARROWS : List String := ["<>", ">>", "-->", "=>", "->", ">"]

/-- Scanner for Python `text.split(sep)` with a non-empty separator:
non-overlapping occurrences scanned left to right; `cur` is the reversed
current segment.  Fuel dominates the input length; every step consumes at
least one character. -/
def spAux (sep : List Char) : Nat → List Char → List Char → List (List Char)
  | _, [], cur => [cur.reverse]
  | 0, l, cur => [cur.reverse ++ l]
  | n + 1, c :: rest, cur =>
    if sep ≠ [] && sep.isPrefixOf (c :: rest) then
      cur.reverse :: spAux sep n ((c :: rest).drop sep.length) []
    else spAux sep n rest (c :: cur)

/-- Embedding of Python `text.split(sep)` for a non-empty separator. -/
def pySplit (text sep : String) : List String :=
  (spAux sep.toList text.toList.length text.toList []).map String.mk

/-- The next two characters spell `TO` case-insensitively. -/
def isTOAt : List Char → Bool
  | c1 :: c2 :: _ => (c1 = 'T' || c1 = 't') && (c2 = 'O' || c2 = 'o')
  | _ => false

/-- Scanner for `re.split(r'\bTO\b', text, flags=re.IGNORECASE)`.  `prevW`
is the word-character status of the previous original character, `cur` the
reversed current segment. -/
def stAux : List Char → Bool → List Char → List (List Char)
  | [], _, cur => [cur.reverse]
  | [c], _, cur => [(c :: cur).reverse]
  | c1 :: c2 :: rest, prevW, cur =>
    if !prevW && isTOAt (c1 :: c2 :: rest) && !headIsWord rest then
      cur.reverse :: stAux rest true []
    else stAux (c2 :: rest) (isWordChar c1) (c1 :: cur)

/-- Embedding of `re.split(r'\bTO\b', text, flags=re.IGNORECASE)`. -/
def splitWordTO (s : String) : List String :=
  (stAux s.toList false []).map String.mk

/-- Scanner for `re.search(r'\bTO\b', text, re.IGNORECASE)`. -/
def hwAux : List Char → Bool → Bool
  | [], _ => false
  | [_], _ => false
  | c1 :: c2 :: rest, prevW =>
    (!prevW && isTOAt (c1 :: c2 :: rest) && !headIsWord rest) ||
      hwAux (c2 :: rest) (isWordChar c1)

/-- Embedding of `re.search(r'\bTO\b', text, re.IGNORECASE) is not None`. -/
def hasWordTO (s : String) : Bool := hwAux s.toList false

/-- Embedding of `_extract_destination_from_route` (see excerpt above).
Python's `text.split(arrow)` is `String.splitOn`, which has identical
semantics for a non-empty separator; `parts[-1].strip()` is the last
part (possibly empty), stripped. -/
def extract_destination_from_route (text : String) : String :=
  match ARROWS.find? (fun a => substrB a.toList text.toList) with
  | some a => pyStrip ((pySplit text a).getLastD "")
  | none =>
    if hasWordTO text then pyStrip ((splitWordTO text).getLastD "")
    else text

/-!  ### Registry data model (README `locode.json` format and index excerpt) -/

/-- One row of `locode.json`:
`{locode, port, country, countryCode, portCode, lat, lon}`. -/
structure PortRec where
  locode : String
  port : String
  country : String
  countryCode : String
  portCode : String
  lat : ℚ
  lon : ℚ
deriving DecidableEq, Repr

/-- A registry is the dataset rows in file (insertion) order. -/
abbrev Registry := List PortRec

/-- The `port_name_index` bucket for an upper-cased port name: all records
whose upper-cased port name equals the key, in dataset order. -/
def byName (reg : Registry) (key : String) : List PortRec :=
  reg.filter (fun r => pyUpper r.port == key)

/-- The `locode_index` lookup.  The index is a dict built by iterating the
dataset, so a duplicated locode is last-write-wins. -/
def byCode (reg : Registry) (code : String) : Option PortRec :=
  (reg.filter (fun r => r.locode == code)).getLast?

/-- The `port_code_index` bucket for a 3-letter location code. -/
def byPortCode (reg : Registry) (pc : String) : List PortRec :=
  reg.filter (fun r => r.portCode == pc)

/-- Modelled from the spec: the `country_name_index` used by
`_extract_country` is not listed in the repository sources; per the spec it
holds the registry's known country names, keyed case-insensitively
(upper-cased). -/
def countryNames (reg : Registry) : List String :=
  reg.map (fun r => pyUpper r.country)

/-!  ### `_extract_country` (README, Stage 4 excerpt)

```python
def _extract_country(self, text: str) -> tuple:
    parts = re.split(r'[,\-./\s]+', text)
    potential_country = parts[-1]
    if potential_country.upper() in self.country_name_index:
        return potential_country.upper(), ' '.join(parts[:-1])
    if parts[0].upper() in self.country_name_index:
        return parts[0].upper(), ' '.join(parts[1:])
    return None, text
```
-/

/-- Character class of `re.split(r'[,\-./\s]+', text)`. -/
def isCtrySep (c : Char) : Bool :=
  c = ',' || c = '-' || c = '.' || c = '/' || isPySpace c

/-- Scanner for `re.split(r'[,\-./\s]+', text)`: maximal separator runs
delimit the parts; a leading or trailing run produces an empty part, as in
Python. -/
def ssAux : List Char → Bool → List Char → List (List Char)
  | [], _, cur => [cur.reverse]
  | c :: rest, inRun, cur =>
    if isCtrySep c then
      if inRun then ssAux rest true cur
      else cur.reverse :: ssAux rest true []
    else ssAux rest false (c :: cur)

/-- Embedding of `re.split(r'[,\-./\s]+', text)`. -/
def splitCtrySeps (s : String) : List String :=
  (ssAux s.toList false []).map String.mk

/-- Embedding of `_extract_country` (see excerpt above).  `' '.join(xs)` is
`String.intercalate " "`. -/
def extract_country (reg : Registry) (text : String) : Option String × String :=
  if (countryNames reg).contains (pyUpper ((splitCtrySeps text).getLastD "")) then
    (some (pyUpper ((splitCtrySeps text).getLastD "")),
     String.intercalate " " (splitCtrySeps text).dropLast)
  else if (countryNames reg).contains (pyUpper ((splitCtrySeps text).headD "")) then
    (some (pyUpper ((splitCtrySeps text).headD "")),
     String.intercalate " " (splitCtrySeps text).tail)
  else (none, text)

/-!  ### `_is_locode` (README, Stage 5 excerpt)

```python
def _is_locode(self, text: str) -> bool:
    text = text.upper().replace(' ', '').replace('-', '')
    return (len(text) == 5 and
            text[:2].isalpha() and
            text[2:].isalpha() and
            text in self.locode_index)
```
-/

/-- The compaction step of `_is_locode`:
`text.upper().replace(' ', '').replace('-', '')`. -/
def compactCode (s : String) : String :=
  String.mk ((upperL s.toList).filter (fun c => !(c = ' ' || c = '-')))

/-- The format part of the `_is_locode` test on an already compacted string:
exactly 5 characters, all alphabetic (`text[:2].isalpha() and
text[2:].isalpha()`). -/
def isCode5 (s : String) : Bool :=
  s.toList.length = 5 && s.toList.all Char.isAlpha

/-!  ### `_fuzzy_match_port_name` and `SequenceMatcher` (README, Stage 6)

```python
def _fuzzy_match_port_name(self, name, country_filter=None, threshold=0.75):
    matches = []
    name_upper = name.upper()
    for port in search_space:
        port_name = port['port'].upper()
        similarity = SequenceMatcher(None, name_upper, port_name).ratio()
        if name_upper in port_name:
            similarity = max(similarity, 0.85)
        if similarity >= threshold:
            matches.append((port, similarity))
    matches.sort(key=lambda x: x[1], reverse=True)
    return [m[0] for m in matches]
```

`SequenceMatcher.ratio()` is `2*M/(len(a)+len(b))` where `M` is the total
size of the Ratcliff–Obershelp matching blocks: recursively take the
longest matching block (smallest start in `a`, then in `b`, among the
longest) and recurse on the pieces to its left and right.  The autojunk
heuristic only affects sequences of length ≥ 200 and is inert here. -/

/-- Length of the longest common prefix of two lists. -/
def cpl : List Char → List Char → Nat
  | a :: as, b :: bs => if a = b then cpl as bs + 1 else 0
  | _, _ => 0

/-- Brute-force equivalent of `SequenceMatcher.find_longest_match` over the
whole ranges: returns `(size, i, j)` with maximal size, ties broken by the
smallest `i`, then the smallest `j` (the scan below visits `(i, j)` in
lexicographic order and replaces the best only on a strict improvement,
exactly the tie-break realised by `find_longest_match`). -/
def flm (a b : List Char) : Nat × Nat × Nat :=
  (List.range a.length).foldl
    (fun best i =>
      (List.range b.length).foldl
        (fun best j =>
          let k := cpl (a.drop i) (b.drop j)
          if best.1 < k then (k, i, j) else best)
        best)
    (0, 0, 0)

/-- Total size of the Ratcliff–Obershelp matching blocks
(`sum(size for _, _, size in get_matching_blocks())`).  Fuel dominates the
recursion depth: each recursive call strictly shrinks the first range, so
`fuel = a.length` is exact. -/
def mtF : Nat → List Char → List Char → Nat
  | 0, _, _ => 0
  | n + 1, a, b =>
    let t := flm a b
    if t.1 = 0 then 0
    else
      t.1 + mtF n (a.take t.2.1) (b.take t.2.2) +
        mtF n (a.drop (t.2.1 + t.1)) (b.drop (t.2.2 + t.1))

/-- Total matched size for `SequenceMatcher(None, a, b)`. -/
def matchTotal (a b : List Char) : Nat := mtF a.length a b

/-- Embedding of `SequenceMatcher(None, a, b).ratio()`
(`_calculate_ratio`: `2*matches/length` if `length` else `1.0`). -/
def pyRatio (a b : List Char) : ℚ :=
  if a.length + b.length = 0 then 1
  else 2 * (matchTotal a b : ℚ) / ((a.length : ℚ) + (b.length : ℚ))

/-- Similarity score of one candidate inside `_fuzzy_match_port_name`:
the `SequenceMatcher` ratio of the two upper-cased strings, floored at
0.85 when the upper-cased query is a substring of the upper-cased
candidate port name. -/
def fuzzyScore (query candidate : String) : ℚ :=
  if substrB (upperL query.toList) (upperL candidate.toList) then
    max (pyRatio (upperL query.toList) (upperL candidate.toList)) (85 / 100)
  else pyRatio (upperL query.toList) (upperL candidate.toList)

/-- Stable insertion of one scored candidate into a descending-sorted list:
it goes before the first element whose score is not larger, so equal scores
keep their original relative order — exactly `list.sort(key=lambda x: x[1],
reverse=True)`, which is stable. -/
def insDesc (x : PortRec × ℚ) : List (PortRec × ℚ) → List (PortRec × ℚ)
  | [] => [x]
  | y :: ys => if y.2 ≤ x.2 then x :: y :: ys else y :: insDesc x ys

/-- Stable descending sort by score (embedding of
`matches.sort(key=lambda x: x[1], reverse=True)`). -/
def sortDesc (l : List (PortRec × ℚ)) : List (PortRec × ℚ) := l.foldr insDesc []

/-- The scored-and-thresholded candidate list built by the loop of
`_fuzzy_match_port_name` (in search-space order). -/
def fuzzyScored (query : String) (θ : ℚ) (space : List PortRec) :
    List (PortRec × ℚ) :=
  space.filterMap (fun p =>
    if θ ≤ fuzzyScore query p.port then some (p, fuzzyScore query p.port)
    else none)

/-- Embedding of `_fuzzy_match_port_name`: the search space is the resolved
country's bucket when a country filter is given, otherwise every record. -/
def fuzzy_match_port_name (reg : Registry) (query : String)
    (countryFilter : Option String) (θ : ℚ) : List PortRec :=
  let space := match countryFilter with
    | some cn => reg.filter (fun r => pyUpper r.country == cn)
    | none => reg
  (sortDesc (fuzzyScored query θ space)).map Prod.fst

/-!  ### Decode pipeline (`match_destination`) -/

/-- The structured outcome of one decode call
(`{reportedDestination, locode, port, country, lat, lon, matched}`). -/
structure DecodeResult where
  rawInput : String
  matched : Bool
  locode : Option String
  port : Option String
  country : Option String
  lat : Option ℚ
  lon : Option ℚ
deriving DecidableEq, Repr

/-- The matched-record formatter (`_format_response`): every field of the
record, plus the raw input verbatim. -/
def formatRec (raw : String) (r : PortRec) : DecodeResult :=
  ⟨raw, true, some r.locode, some r.port, some r.country, some r.lat, some r.lon⟩

/-- The unmatched outcome: `matched=false`, raw input verbatim, no location
fields. -/
def unmatched (raw : String) : DecodeResult :=
  ⟨raw, false, none, none, none, none, none⟩

/-- Modelled from the spec: `_normalize_text` is not listed in the
repository sources; per the spec, the Stage A key is the cleaned text
upper-cased (spec §4.5 step 2), and the cleaned text is compared stripped. -/
def normalize_text (s : String) : String := pyUpper (pyStrip s)

/-- Modelled from the spec: the loose pre-extraction normalization of spec
§4.5 step 1 ("once loosely before route extraction so separators are
visible") — case folding and trimming only, leaving separators intact. -/
def looseNormalize (s : String) : String := pyUpper (pyStrip s)

/-- Stage B: exact LOCODE match on the compacted cleaned text
(`_is_locode` followed by the `locode_index` lookup). -/
def stageB (reg : Registry) (cleaned : String) : Option PortRec :=
  if isCode5 (compactCode cleaned) then byCode reg (compactCode cleaned) else none

/-- Modelled from the spec: Stage C, the country-scoped fuzzy match with
the loose threshold 0.65 (`LOW_THRESHOLD` in the Port Matcher
Configuration block), taking the best-scoring record of the resolved
country's bucket. -/
def stageC (reg : Registry) (countryName : String) (portText : String) :
    Option PortRec :=
  (fuzzy_match_port_name reg portText (some countryName) (65 / 100)).head?

/-- Modelled from the spec: Stage D, the global fuzzy match with the strict
default threshold 0.75. -/
def stageD (reg : Registry) (cleaned : String) : Option PortRec :=
  (fuzzy_match_port_name reg cleaned none (75 / 100)).head?

/-- Stage E: bare 3-letter location-code fallback — the compacted cleaned
text is exactly 3 alphabetic characters and present in `port_code_index`;
the first matching record wins. -/
def stageE (reg : Registry) (cleaned : String) : Option PortRec :=
  if (compactCode cleaned).toList.length = 3 &&
      (compactCode cleaned).toList.all Char.isAlpha then
    (byPortCode reg (compactCode cleaned)).head?
  else none

/-- The pre-processing of spec §4.5 step 1: loose normalization, route
extraction, then noise removal on the isolated final leg. -/
def cleanedOf (raw : String) : String :=
  remove_noise (extract_destination_from_route (looseNormalize raw))

/-- Modelled from the spec: the `match_destination` pipeline body is only
documented, not listed, in the repository sources.  Stage order, the
empty-input guard, and the short-circuiting follow spec §4.5: 1 cleaning,
A exact port name, country extraction, B exact code, C country-scoped
fuzzy, D global fuzzy, E bare location code, F unmatched.  The source
computes `extract_country` once into a pair; `extract_country` is pure, so
the two projections below denote that single computation. -/
def stagedMatch (reg : Registry) (raw cleaned : String) : DecodeResult :=
  match (byName reg (normalize_text cleaned)).head? with
  | some r => formatRec raw r
  | none =>
    match stageB reg cleaned with
    | some r => formatRec raw r
    | none =>
      match (match (extract_country reg cleaned).1 with
             | some cn => stageC reg cn (extract_country reg cleaned).2
             | none => none) with
      | some r => formatRec raw r
      | none =>
        match stageD reg cleaned with
        | some r => formatRec raw r
        | none =>
          match stageE reg cleaned with
          | some r => formatRec raw r
          | none => unmatched raw

/-- The whole decode: clean, guard the empty input, then run the cascade. -/
def match_destination (reg : Registry) (raw : String) : DecodeResult :=
  if cleanedOf raw = "" then unmatched raw
  else stagedMatch reg raw (cleanedOf raw)

/-!  ### JS utilities (`src/backend/utils/normalizer.js`) -/

/-- Tanker keywords of `normalizeShipType`. -/
def tankerKeywords : List String :=
  ["tanker", "oil", "crude", "chemical", "asphalt", "acid", "molasses",
   "product", "lng", "lpg", "gas"]

/-- Tug keywords of `normalizeShipType`. -/
def tugKeywords : List String := ["tug", "pusher", "tractor", "catamaran", "yatch"]

/-- Merchant-vessel keywords of `normalizeShipType` (the source lists
"cruise" twice; kept verbatim). -/
def mvKeywords : List String :=
  ["cargo", "bulk", "container", "reefer", "vehicle", "cruise", "livestock",
   "passenger", "cruise", "ro/ro", "training", "general"]

/-- Embedding of `normalizeShipType` (normalizer.js lines 18–68).  `none`
stands for a nullish raw type; the empty string is the other falsy string
value, so `!rawType` is `none` or `some ""`. -/
def normalizeShipType (rawType : Option String) : String :=
  match rawType with
  | none => "others"
  | some s =>
    if s = "" then "others"
    else
      if tankerKeywords.any (fun kw => substrB kw.toList (pyLower s).toList)
      then "mt"
      else if tugKeywords.any (fun kw => substrB kw.toList (pyLower s).toList)
      then "tug"
      else if mvKeywords.any (fun kw => substrB kw.toList (pyLower s).toList)
      then "mv"
      else "others"

/-- Embedding of the guard clauses of `normalizeDestination`
(normalizer.js lines 100–120): nullish/non-string input (` none`) and
falsy or trim-empty strings short-circuit to a `matched=false` result with
`reportedDestination` "Unknown"; otherwise the trimmed upper-cased
destination is forwarded to the decoder service. -/
def destGuard (rawDest : Option String) : Sum DecodeResult String :=
  match rawDest with
  | none => Sum.inl (unmatched "Unknown")
  | some s =>
    if s = "" then Sum.inl (unmatched "Unknown")
    else if pyUpper (pyStrip s) = "" then Sum.inl (unmatched "Unknown")
    else Sum.inr (pyUpper (pyStrip s))

/-!  ### Cache service (`getBatch`, part_004 lines 98–129) -/

/-- The result object of `cacheService.getBatch`: `cached` is a JS object
(insertion-ordered keys, assignment overwrites an existing key in place),
`missing` an array. -/
structure BatchResult (α : Type) where
  cached : List (String × α)
  missing : List String
deriving DecidableEq, Repr

/-- JS object assignment `obj[k] = v`: overwrite in place if the key
exists, otherwise append. -/
def jsAssign {α : Type} (l : List (String × α)) (k : String) (v : α) :
    List (String × α) :=
  match l with
  | [] => [(k, v)]
  | (k0, v0) :: rest =>
    if k0 = k then (k0, v) :: rest else (k0, v0) :: jsAssign rest k v

/-- One iteration of the forEach in `cacheService.getBatch`: a truthy
cached value is assigned under the IMO key, otherwise the IMO is pushed
onto `missing`. -/
def getBatchStep {α : Type} (cache : String → Option α)
    (acc : BatchResult α) (imo : String) : BatchResult α :=
  match cache imo with
  | some v => { acc with cached := jsAssign acc.cached imo v }
  | none => { acc with missing := acc.missing ++ [imo] }

/-- Embedding of `cacheService.getBatch` on the success path.  `cache`
models one consistent Redis snapshot: `some v` when `getVessel` yields a
truthy parsed value for the IMO, `none` on a miss (or a per-key error,
which `getVessel` converts to `null`).  The forEach over the awaited
results is a left fold in request order. -/
def getBatch {α : Type} (cache : String → Option α) (imos : List String) :
    BatchResult α :=
  imos.foldl (getBatchStep cache) ⟨[], []⟩

/-- Embedding of the catch branch of `getBatch`: on a Redis batch failure
the result degrades to `{ cached: {}, missing: imos }`. -/
def getBatchOnError {α : Type} (imos : List String) : BatchResult α :=
  ⟨[], imos⟩

/-!  ### Concrete sample registry (README `locode.json` excerpt plus the
spec's concrete Hull scenario) -/

/-- The Istanbul row of the README dataset excerpt (coordinates 41.0082 and
28.9784, written in reduced-fraction constructor form so that kernel
evaluation is possible; the decimal link is proved in the C1 theorem). -/
def tristRec : PortRec :=
  ⟨"TRIST", "Istanbul", "Turkey", "TR", "IST", Rat.mk' 205041 5000, Rat.mk' 36223 1250⟩

/-- The Singapore row of the README dataset excerpt (1.2644, 103.8224). -/
def sgsinRec : PortRec :=
  ⟨"SGSIN", "Singapore", "Singapore", "SG", "SIN", Rat.mk' 3161 2500, Rat.mk' 64889 625⟩

/-- The Hull row from the spec's concrete scenarios (53.7444, -0.3369). -/
def gbhulRec : PortRec :=
  ⟨"GBHUL", "Hull", "United Kingdom", "GB", "HUL", Rat.mk' 134361 2500, Rat.mk' (-3369) 10000⟩

/-- A small registry with the three concrete records. -/
def sampleReg : Registry := [tristRec, sgsinRec, gbhulRec]

/-!  ## Helper lemmas: characters -/

theorem u32le {a b : UInt32} : (a ≤ b) ↔ (a.toNat ≤ b.toNat) := Iff.rfl

theorem isUpper_toNat {c : Char} : c.isUpper = true ↔ 65 ≤ c.toNat ∧ c.toNat ≤ 90 := by
  simp [Char.isUpper, u32le]
  rfl

theorem isLower_toNat {c : Char} : c.isLower = true ↔ 97 ≤ c.toNat ∧ c.toNat ≤ 122 := by
  simp [Char.isLower, u32le]
  rfl

theorem toUpper_of_isUpper {c : Char} (h : c.isUpper = true) : c.toUpper = c := by
  rw [isUpper_toNat] at h
  simp [Char.toUpper]
  intro h1
  omega

theorem toUpper_of_not_isLower {c : Char} (h : ¬c.isLower = true) : c.toUpper = c := by
  rw [isLower_toNat] at h
  simp [Char.toUpper]
  intro h1 h2
  omega

theorem toNat_ofNat_valid {n : Nat} (h : n < 55296) : (Char.ofNat n).toNat = n := by
  rw [Char.ofNat, dif_pos (Or.inl h)]
  simp [Char.ofNatAux, Char.toNat, UInt32.toNat]

theorem toUpper_toNat_of_isLower {c : Char} (h : c.isLower = true) :
    c.toUpper.toNat = c.toNat - 32 := by
  rw [isLower_toNat] at h
  simp [Char.toUpper]
  rw [if_pos (by omega)]
  rw [toNat_ofNat_valid (by omega)]

theorem isUpper_toUpper_of_isLower {c : Char} (h : c.isLower = true) :
    c.toUpper.isUpper = true := by
  have h2 := toUpper_toNat_of_isLower h
  rw [isLower_toNat] at h
  rw [isUpper_toNat]
  omega

theorem toUpper_idem (c : Char) : c.toUpper.toUpper = c.toUpper := by
  by_cases h : c.isLower = true
  · exact toUpper_of_isUpper (isUpper_toUpper_of_isLower h)
  · rw [toUpper_of_not_isLower h, toUpper_of_not_isLower h]

theorem isUpper_toUpper_of_isAlpha {c : Char} (h : c.isAlpha = true) :
    c.toUpper.isUpper = true := by
  simp [Char.isAlpha] at h
  rcases h with h | h
  · rw [toUpper_of_isUpper h]
    exact h
  · exact isUpper_toUpper_of_isLower h

theorem isWordChar_of_isUpper {c : Char} (h : c.isUpper = true) :
    isWordChar c = true := by
  simp [isWordChar, Char.isAlphanum, Char.isAlpha, h]

theorem isAlpha_of_isUpper {c : Char} (h : c.isUpper = true) : c.isAlpha = true := by
  simp [Char.isAlpha, h]

theorem isSymChar_of_isUpper {c : Char} (h : c.isUpper = true) :
    isSymChar c = false := by
  cases hc : isSymChar c
  · rfl
  · exfalso
    simp [isSymChar] at hc
    rcases hc with ((((((((h1 | h1) | h1) | h1) | h1) | h1) | h1) | h1) | h1) <;>
      (subst h1; revert h; decide)

theorem isPySpace_of_isUpper {c : Char} (h : c.isUpper = true) :
    isPySpace c = false := by
  cases hc : isPySpace c
  · rfl
  · exfalso
    simp [isPySpace] at hc
    rcases hc with ((((h1 | h1) | h1) | h1) | h1) | h1 <;>
      (subst h1; revert h; decide)

theorem ne_lparen_of_isUpper {c : Char} (h : c.isUpper = true) : c ≠ '(' := by
  intro he
  subst he
  revert h
  decide

/-!  ## Helper lemmas: scanners on restricted character classes -/

theorem toList_mk (l : List Char) : (String.mk l).toList = l := rfl

theorem mk_toList (s : String) : String.mk s.toList = s := rfl

theorem upperL_fixed {l : List Char} (h : ∀ c ∈ l, c.isUpper = true) :
    upperL l = l := by
  induction l with
  | nil => rfl
  | cons c rest ih =>
    simp only [upperL, List.map_cons]
    rw [toUpper_of_isUpper (h c (by simp))]
    have := ih (fun x hx => h x (by simp [hx]))
    simp only [upperL] at this
    rw [this]

theorem rpAux_no_paren {l : List Char} (h : ∀ c ∈ l, c ≠ '(') :
    rpAux l none = l := by
  induction l with
  | nil => rfl
  | cons c rest ih =>
    simp only [rpAux]
    rw [if_neg (h c (by simp))]
    rw [ih (fun x hx => h x (by simp [hx]))]

theorem csAux_no_sym {l : List Char} (h : ∀ c ∈ l, isSymChar c = false) :
    ∀ b, csAux l b = l := by
  induction l with
  | nil => intro b; rfl
  | cons c rest ih =>
    intro b
    simp only [csAux]
    rw [h c (by simp)]
    simp only [Bool.false_eq_true, if_false]
    rw [ih (fun x hx => h x (by simp [hx]))]

theorem cwAux_no_space {l : List Char} (h : ∀ c ∈ l, isPySpace c = false) :
    ∀ b, cwAux l b = l := by
  induction l with
  | nil => intro b; rfl
  | cons c rest ih =>
    intro b
    simp only [cwAux]
    rw [h c (by simp)]
    simp only [Bool.false_eq_true, if_false]
    rw [ih (fun x hx => h x (by simp [hx]))]

theorem swAux_allWord_true {w l : List Char}
    (h : ∀ c ∈ l, isWordChar c = true) : swAux w l true 0 = l := by
  induction l with
  | nil => rfl
  | cons c rest ih =>
    simp only [swAux, Bool.not_true, Bool.and_false, Bool.false_and,
      Bool.false_eq_true, if_false]
    rw [h c (by simp)]
    rw [ih (fun x hx => h x (by simp [hx]))]

theorem swAux_allWord_false {w l : List Char}
    (hw : ∀ c ∈ l, isWordChar c = true) (hne : l ≠ w) :
    swAux w l false 0 = l := by
  cases l with
  | nil => rfl
  | cons c rest =>
    have hcond : (decide (w ≠ []) && !false && w.isPrefixOf (c :: rest) &&
        !headIsWord ((c :: rest).drop w.length)) = false := by
      by_cases hp : w.isPrefixOf (c :: rest) = true
      · have hpre : w <+: c :: rest := List.isPrefixOf_iff_prefix.mp hp
        obtain ⟨t, ht⟩ := hpre
        have hdrop : (c :: rest).drop w.length = t := by
          rw [← ht]
          exact List.drop_left w t
        cases t with
        | nil =>
          exfalso
          apply hne
          rw [← ht]
          simp
        | cons d t2 =>
          have hd : isWordChar d = true := by
            apply hw
            rw [← ht]
            simp
          rw [hdrop]
          simp [headIsWord, hd]
      · cases hcase : w.isPrefixOf (c :: rest) with
        | false => simp
        | true => exact absurd hcase hp
    simp only [swAux, hcond, Bool.false_eq_true, if_false]
    rw [hw c (by simp)]
    rw [swAux_allWord_true (fun x hx => hw x (by simp [hx]))]

theorem subWord_fixed {w l : List Char}
    (hw : ∀ c ∈ l, isWordChar c = true) (hne : l ≠ w) : subWord w l = l :=
  swAux_allWord_false hw hne

theorem foldl_subWord_fixed {l : List Char} {ws : List String}
    (h : ∀ w ∈ ws, subWord w.toList l = l) :
    ws.foldl (fun acc w => subWord w.toList acc) l = l := by
  induction ws with
  | nil => rfl
  | cons w rest ih =>
    simp only [List.foldl_cons]
    rw [h w (by simp)]
    exact ih (fun x hx => h x (by simp [hx]))

theorem dropWhile_fixed {p : Char → Bool} {l : List Char}
    (h : ∀ c ∈ l, p c = false) : l.dropWhile p = l := by
  cases l with
  | nil => rfl
  | cons c rest =>
    rw [List.dropWhile_cons]
    simp [h c (by simp)]

theorem stripL_fixed {l : List Char} (h : ∀ c ∈ l, isPySpace c = false) :
    stripL l = l := by
  unfold stripL
  rw [dropWhile_fixed h]
  rw [dropWhile_fixed (fun c hc => h c (List.mem_reverse.mp hc))]
  exact List.reverse_reverse l

theorem hwAux_allWord_true {l : List Char}
    (h : ∀ c ∈ l, isWordChar c = true) : hwAux l true = false := by
  induction l with
  | nil => rfl
  | cons c rest ih =>
    cases rest with
    | nil => rfl
    | cons c2 r2 =>
      simp only [hwAux, Bool.not_true, Bool.false_and, Bool.false_or]
      rw [h c (by simp)]
      exact ih (fun x hx => h x (by simp [hx]))

theorem hwAux_allWord_false {l : List Char}
    (h : ∀ c ∈ l, isWordChar c = true) (hlen : l.length ≠ 2) :
    hwAux l false = false := by
  cases l with
  | nil => rfl
  | cons c rest =>
    cases rest with
    | nil => rfl
    | cons c2 r2 =>
      cases r2 with
      | nil => exact absurd rfl hlen
      | cons c3 r3 =>
        have h3 : headIsWord (c3 :: r3) = true := by
          simp only [headIsWord]
          exact h c3 (by simp)
        have hc : isWordChar c = true := h c (by simp)
        have hc2 : isWordChar c2 = true := h c2 (by simp)
        simp only [hwAux, h3, hc, hc2, Bool.not_true, Bool.not_false,
          Bool.and_false, Bool.false_and, Bool.true_and, Bool.false_or]
        apply hwAux_allWord_true
        intro x hx
        exact h x (by simp [hx])

theorem mem_of_substrB {needle hay : List Char} (h : substrB needle hay = true) :
    ∀ c ∈ needle, c ∈ hay := by
  induction hay with
  | nil =>
    intro c hc
    exfalso
    cases needle with
    | nil => cases hc
    | cons d d2 => simp [substrB, List.isPrefixOf] at h
  | cons x rest ih =>
    simp only [substrB, Bool.or_eq_true] at h
    intro c hc
    rcases h with h | h
    · exact (List.isPrefixOf_iff_prefix.mp h).subset hc
    · exact List.mem_cons_of_mem x (ih h c hc)

/-!  ## Fixed points of the cleaning pipeline on all-uppercase words -/

theorem remove_noise_fixed {s : String} (hup : ∀ c ∈ s.toList, c.isUpper = true)
    (hnw : ∀ w ∈ NOISE_WORDS, s.toList ≠ w.toList) : remove_noise s = s := by
  unfold remove_noise
  unfold collapseSyms collapseWs removeParens
  rw [upperL_fixed hup]
  rw [rpAux_no_paren (fun c hc => ne_lparen_of_isUpper (hup c hc))]
  rw [csAux_no_sym (fun c hc => isSymChar_of_isUpper (hup c hc))]
  rw [foldl_subWord_fixed (fun w hw =>
    subWord_fixed (fun c hc => isWordChar_of_isUpper (hup c hc)) (hnw w hw))]
  rw [cwAux_no_space (fun c hc => isPySpace_of_isUpper (hup c hc))]
  rw [stripL_fixed (fun c hc => isPySpace_of_isUpper (hup c hc))]
  exact mk_toList s

theorem extract_route_fixed {s : String}
    (hup : ∀ c ∈ s.toList, c.isUpper = true) (hlen : s.toList.length ≠ 2) :
    extract_destination_from_route s = s := by
  unfold extract_destination_from_route
  have hfind : ARROWS.find? (fun a => substrB a.toList s.toList) = none := by
    rw [List.find?_eq_none]
    intro a ha
    have hgt : '>' ∈ a.toList := by fin_cases ha <;> decide
    simp only [Bool.not_eq_true]
    cases hcase : substrB a.toList s.toList with
    | false => rfl
    | true =>
      exfalso
      have hmem := mem_of_substrB hcase '>' hgt
      have := hup '>' hmem
      revert this
      decide
  rw [hfind]
  have hto : hasWordTO s = false :=
    hwAux_allWord_false (fun c hc => isWordChar_of_isUpper (hup c hc)) hlen
  rw [hto]
  simp

theorem looseNormalize_fixed {s : String}
    (hup : ∀ c ∈ s.toList, c.isUpper = true) : looseNormalize s = s := by
  unfold looseNormalize pyUpper pyStrip
  rw [toList_mk, stripL_fixed (fun c hc => isPySpace_of_isUpper (hup c hc))]
  rw [upperL_fixed hup]
  exact mk_toList s

theorem cleanedOf_fixed {s : String} (hup : ∀ c ∈ s.toList, c.isUpper = true)
    (hlen2 : s.toList.length ≠ 2)
    (hnw : ∀ w ∈ NOISE_WORDS, s.toList ≠ w.toList) : cleanedOf s = s := by
  unfold cleanedOf
  rw [looseNormalize_fixed hup, extract_route_fixed hup hlen2,
    remove_noise_fixed hup hnw]

theorem noise_ne_of_length {l : List Char} (h : l.length = 5 ∨ l.length = 2) :
    ∀ w ∈ NOISE_WORDS, l ≠ w.toList := by
  intro w hw
  fin_cases hw <;>
    (intro he; rw [he] at h; revert h; decide)

/-!  ## Index lemmas -/

theorem compactCode_fixed {s : String}
    (hup : ∀ c ∈ s.toList, c.isUpper = true) : compactCode s = s := by
  unfold compactCode
  rw [upperL_fixed hup]
  rw [List.filter_eq_self.mpr ?_]
  · exact mk_toList s
  · intro c hc
    have hsp := isPySpace_of_isUpper (hup c hc)
    have hsy := isSymChar_of_isUpper (hup c hc)
    have h1 : c ≠ ' ' := by
      intro he
      rw [he] at hsp
      revert hsp
      decide
    have h2 : c ≠ '-' := by
      intro he
      rw [he] at hsy
      revert hsy
      decide
    simp [h1, h2]

theorem byName_eq_nil {reg : Registry} {key : String}
    (h : ∀ p ∈ reg, pyUpper p.port ≠ key) : byName reg key = [] := by
  unfold byName
  rw [List.filter_eq_nil_iff]
  intro r hr
  simp only [beq_iff_eq, Bool.not_eq_true]
  intro he
  exact h r hr (by simpa using he)

theorem filter_locode_unique {reg : Registry} {r : PortRec}
    (hnd : (reg.map PortRec.locode).Nodup) (hmem : r ∈ reg) :
    reg.filter (fun x => x.locode == r.locode) = [r] := by
  induction reg with
  | nil => cases hmem
  | cons a rest ih =>
    rw [List.map_cons, List.nodup_cons] at hnd
    obtain ⟨hna, hnr⟩ := hnd
    rcases List.mem_cons.mp hmem with he | hm
    · subst he
      rw [List.filter_cons_of_pos (by simp)]
      have : rest.filter (fun x => x.locode == r.locode) = [] := by
        rw [List.filter_eq_nil_iff]
        intro x hx
        simp only [beq_iff_eq, Bool.not_eq_true]
        intro hxe
        exact hna (hxe ▸ List.mem_map_of_mem PortRec.locode hx)
      rw [this]
    · have hne : a.locode ≠ r.locode := by
        intro he
        exact hna (he ▸ List.mem_map_of_mem PortRec.locode hm)
      rw [List.filter_cons_of_neg (by simp [hne])]
      exact ih hnr hm

theorem byCode_unique {reg : Registry} {r : PortRec}
    (hnd : (reg.map PortRec.locode).Nodup) (hmem : r ∈ reg) :
    byCode reg r.locode = some r := by
  unfold byCode
  rw [filter_locode_unique hnd hmem]
  rfl

theorem head_filter_decomp {p : PortRec → Bool} {l : List PortRec} {x : PortRec}
    (h : (l.filter p).head? = some x) :
    ∃ l1 l2, l = l1 ++ x :: l2 ∧ (∀ y ∈ l1, p y = false) ∧ p x = true := by
  induction l with
  | nil => cases h
  | cons a rest ih =>
    by_cases hp : p a = true
    · rw [List.filter_cons_of_pos hp, List.head?_cons, Option.some_inj] at h
      subst h
      exact ⟨[], rest, rfl, by simp, hp⟩
    · rw [List.filter_cons_of_neg (by simpa using hp)] at h
      obtain ⟨l1, l2, he, hall, hx⟩ := ih h
      refine ⟨a :: l1, l2, by simp [he], ?_, hx⟩
      intro y hy
      rcases List.mem_cons.mp hy with hy | hy
      · subst hy
        exact Bool.eq_false_iff.mpr hp
      · exact hall y hy

theorem normalize_text_fixed {s : String}
    (hup : ∀ c ∈ s.toList, c.isUpper = true) : normalize_text s = s := by
  unfold normalize_text pyUpper pyStrip
  rw [toList_mk, stripL_fixed (fun c hc => isPySpace_of_isUpper (hup c hc))]
  rw [upperL_fixed hup]
  exact mk_toList s

/-!  ## Claim C1 -/

/-- A registry in which one record's locode (`AATST`) is also another
record's exact port name, so Stage A shadows the exact-code stage. -/
def shadowRecA : PortRec :=
  ⟨"AAAAA", "AATST", "Aland", "AA", "AAA", Rat.mk' 1 1, Rat.mk' 1 1⟩

/-- The shadowed record: its code `AATST` equals `shadowRecA`'s port name. -/
def shadowRecB : PortRec :=
  ⟨"AATST", "Btown", "Bland", "AA", "TST", Rat.mk' 2 1, Rat.mk' 2 1⟩

/-- Two-record registry exhibiting the Stage A shadowing. -/
def shadowReg : Registry := [shadowRecA, shadowRecB]

set_option maxHeartbeats 1000000 in
/-- C1 (amended): for every registry record whose 5-letter code is not
also some record's port name, `decode(record.code)` returns `matched=true`
with that record's exact port, country and coordinates via the Stage B
compaction; and concretely `decode("SGSIN")` on the sample registry yields
port Singapore, country Singapore, lat 1.2644, lon 103.8224, while
`GBHUL`, `GB HUL` and `GB-HUL` all resolve to the same Hull record. -/
theorem C1_exact_code_roundtrip (reg : Registry) (r : PortRec)
    (hmem : r ∈ reg)
    (hnd : (reg.map PortRec.locode).Nodup)
    (hlen : r.locode.toList.length = 5)
    (hup : ∀ c ∈ r.locode.toList, c.isUpper = true)
    (hshadow : ∀ p ∈ reg, pyUpper p.port ≠ r.locode) :
    match_destination reg r.locode = formatRec r.locode r ∧
    match_destination sampleReg "SGSIN" = formatRec "SGSIN" sgsinRec ∧
    sgsinRec.port = "Singapore" ∧ sgsinRec.country = "Singapore" ∧
    sgsinRec.lat = 1.2644 ∧ sgsinRec.lon = 103.8224 ∧
    match_destination sampleReg "GBHUL" = formatRec "GBHUL" gbhulRec ∧
    match_destination sampleReg "GB HUL" = formatRec "GB HUL" gbhulRec ∧
    match_destination sampleReg "GB-HUL" = formatRec "GB-HUL" gbhulRec := by
  refine ⟨?_, by decide, by decide, by decide, ?_, ?_, by decide, by decide, by decide⟩
  · have hne2 : r.locode.toList.length ≠ 2 := by omega
    have hcl : cleanedOf r.locode = r.locode :=
      cleanedOf_fixed hup hne2 (noise_ne_of_length (Or.inl hlen))
    have hnee : ¬(r.locode = "") := by
      intro he
      rw [he] at hlen
      cases hlen
    have hsb : stageB reg r.locode = some r := by
      unfold stageB
      rw [compactCode_fixed hup]
      have hic : isCode5 r.locode = true := by
        unfold isCode5
        rw [hlen]
        simp only [List.all_eq_true, decide_eq_true_eq, and_true, true_and,
          Bool.and_eq_true]
        exact fun c hc => isAlpha_of_isUpper (hup c hc)
      rw [hic]
      rw [if_pos rfl]
      exact byCode_unique hnd hmem
    unfold match_destination
    rw [hcl]
    rw [if_neg hnee]
    unfold stagedMatch
    rw [normalize_text_fixed hup]
    rw [byName_eq_nil hshadow]
    simp only [List.head?_nil]
    rw [hsb]
  · show Rat.mk' 3161 2500 = _
    rw [Rat.mk'_eq_divInt, Rat.divInt_eq_div]
    norm_num
  · show Rat.mk' 64889 625 = _
    rw [Rat.mk'_eq_divInt, Rat.divInt_eq_div]
    norm_num

set_option maxHeartbeats 1000000 in
/-- Witness: the round trip at the concrete Singapore record. -/
theorem C1_witness :
    match_destination sampleReg sgsinRec.locode = formatRec sgsinRec.locode sgsinRec ∧
    match_destination sampleReg "SGSIN" = formatRec "SGSIN" sgsinRec ∧
    sgsinRec.port = "Singapore" ∧ sgsinRec.country = "Singapore" ∧
    sgsinRec.lat = 1.2644 ∧ sgsinRec.lon = 103.8224 ∧
    match_destination sampleReg "GBHUL" = formatRec "GBHUL" gbhulRec ∧
    match_destination sampleReg "GB HUL" = formatRec "GB HUL" gbhulRec ∧
    match_destination sampleReg "GB-HUL" = formatRec "GB-HUL" gbhulRec :=
  C1_exact_code_roundtrip sampleReg sgsinRec (by decide) (by decide) (by decide)
    (by decide) (by decide)

set_option maxHeartbeats 1000000 in
/-- Counterexample to C1 as stated: in `shadowReg` the record with code
`AATST` is well formed (5 uppercase letters, unique codes), yet
`decode("AATST")` returns the other record — Stage A fires first because
`AATST` is also a port name — so the result does not carry that record's
country or coordinates. -/
theorem C1_counterexample :
    shadowRecB ∈ shadowReg ∧
    (shadowReg.map PortRec.locode).Nodup ∧
    shadowRecB.locode.toList.length = 5 ∧
    (∀ c ∈ shadowRecB.locode.toList, c.isUpper = true) ∧
    (match_destination shadowReg shadowRecB.locode).matched = true ∧
    match_destination shadowReg shadowRecB.locode ≠ formatRec shadowRecB.locode shadowRecB ∧
    (match_destination shadowReg shadowRecB.locode).country ≠ some shadowRecB.country := by
  decide

/-!  ## Structural invariants of `remove_noise` output -/

theorem head?_dropWhile_false {p : Char → Bool} {l : List Char} {c : Char}
    (h : (l.dropWhile p).head? = some c) : p c = false := by
  have := List.head?_dropWhile_not p l
  rw [h] at this
  exact this

theorem dropWhile_eq_self_of_head {p : Char → Bool} {l : List Char}
    (h : ∀ c, l.head? = some c → p c = false) : l.dropWhile p = l := by
  cases l with
  | nil => rfl
  | cons a rest =>
    rw [List.dropWhile_cons]
    simp [h a rfl]

theorem stripL_eq_self {l : List Char}
    (h1 : ∀ c, l.head? = some c → isPySpace c = false)
    (h2 : ∀ c, l.getLast? = some c → isPySpace c = false) : stripL l = l := by
  unfold stripL
  rw [dropWhile_eq_self_of_head h1]
  rw [dropWhile_eq_self_of_head (fun c hc => h2 c (by rwa [List.head?_reverse] at hc))]
  exact List.reverse_reverse l

theorem getLast?_stripL {l : List Char} {c : Char}
    (h : (stripL l).getLast? = some c) : isPySpace c = false := by
  unfold stripL at h
  rw [List.getLast?_reverse] at h
  exact head?_dropWhile_false h

theorem head?_stripL {l : List Char} {c : Char}
    (h : (stripL l).head? = some c) : isPySpace c = false := by
  unfold stripL at h
  rw [List.head?_reverse] at h
  obtain ⟨t, ht⟩ : (l.dropWhile isPySpace).reverse.dropWhile isPySpace <:+
      (l.dropWhile isPySpace).reverse := List.dropWhile_suffix isPySpace
  have hgl : ((l.dropWhile isPySpace).reverse).getLast? = some c := by
    rw [← ht, List.getLast?_append, h]
    rfl
  rw [List.getLast?_reverse] at hgl
  exact head?_dropWhile_false hgl

theorem stripL_idem (l : List Char) : stripL (stripL l) = stripL l :=
  stripL_eq_self (fun _ hc => head?_stripL hc) (fun _ hc => getLast?_stripL hc)

theorem remove_noise_stripped (s : String) :
    pyStrip (remove_noise s) = remove_noise s := by
  unfold remove_noise pyStrip
  rw [toList_mk, stripL_idem]

/-- Characters fixed by upper-casing. -/
def UFixed (l : List Char) : Prop := ∀ c ∈ l, c.toUpper = c

theorem uFixed_upperL (l : List Char) : UFixed (upperL l) := by
  intro c hc
  obtain ⟨d, _, hd⟩ := List.mem_map.mp hc
  rw [← hd]
  exact toUpper_idem d

theorem mem_rpAux {c : Char} :
    ∀ {l : List Char} {st : Option (List Char)}, c ∈ rpAux l st →
      c ∈ l ∨ ∃ p, st = some p ∧ c ∈ p := by
  intro l
  induction l with
  | nil =>
    intro st h
    cases st with
    | none => cases h
    | some p =>
      simp only [rpAux] at h
      exact Or.inr ⟨p, rfl, List.mem_reverse.mp h⟩
  | cons a rest ih =>
    intro st h
    cases st with
    | none =>
      simp only [rpAux] at h
      by_cases ha : a = '('
      · rw [if_pos ha] at h
        rcases ih h with hc | ⟨p, hp, hcp⟩
        · exact Or.inl (List.mem_cons_of_mem a hc)
        · cases hp
          simp at hcp
          exact Or.inl (by simp [hcp, ha])
      · rw [if_neg ha] at h
        rcases List.mem_cons.mp h with hc | hc
        · exact Or.inl (by simp [hc])
        · rcases ih hc with hc2 | ⟨p, hp, _⟩
          · exact Or.inl (List.mem_cons_of_mem a hc2)
          · cases hp
    | some p =>
      simp only [rpAux] at h
      by_cases ha : a = ')'
      · rw [if_pos ha] at h
        rcases ih h with hc | ⟨q, hq, _⟩
        · exact Or.inl (List.mem_cons_of_mem a hc)
        · cases hq
      · rw [if_neg ha] at h
        rcases ih h with hc | ⟨q, hq, hcq⟩
        · exact Or.inl (List.mem_cons_of_mem a hc)
        · injection hq with hq2
          subst hq2
          rcases List.mem_cons.mp hcq with hc | hc
          · exact Or.inl (by simp [hc])
          · exact Or.inr ⟨p, rfl, hc⟩

theorem mem_csAux {c : Char} :
    ∀ {l : List Char} {b : Bool}, c ∈ csAux l b → c ∈ l ∨ c = ' ' := by
  intro l
  induction l with
  | nil => intro b h; cases h
  | cons a rest ih =>
    intro b h
    simp only [csAux] at h
    by_cases ha : isSymChar a = true
    · rw [if_pos ha] at h
      by_cases hb : b = true
      · rw [if_pos hb] at h
        rcases ih h with hc | hc
        · exact Or.inl (List.mem_cons_of_mem a hc)
        · exact Or.inr hc
      · rw [if_neg hb] at h
        rcases List.mem_cons.mp h with hc | hc
        · exact Or.inr hc
        · rcases ih hc with hc2 | hc2
          · exact Or.inl (List.mem_cons_of_mem a hc2)
          · exact Or.inr hc2
    · rw [if_neg ha] at h
      rcases List.mem_cons.mp h with hc | hc
      · exact Or.inl (by simp [hc])
      · rcases ih hc with hc2 | hc2
        · exact Or.inl (List.mem_cons_of_mem a hc2)
        · exact Or.inr hc2

theorem mem_cwAux {c : Char} :
    ∀ {l : List Char} {b : Bool}, c ∈ cwAux l b → c ∈ l ∨ c = ' ' := by
  intro l
  induction l with
  | nil => intro b h; cases h
  | cons a rest ih =>
    intro b h
    simp only [cwAux] at h
    by_cases ha : isPySpace a = true
    · rw [if_pos ha] at h
      by_cases hb : b = true
      · rw [if_pos hb] at h
        rcases ih h with hc | hc
        · exact Or.inl (List.mem_cons_of_mem a hc)
        · exact Or.inr hc
      · rw [if_neg hb] at h
        rcases List.mem_cons.mp h with hc | hc
        · exact Or.inr hc
        · rcases ih hc with hc2 | hc2
          · exact Or.inl (List.mem_cons_of_mem a hc2)
          · exact Or.inr hc2
    · rw [if_neg ha] at h
      rcases List.mem_cons.mp h with hc | hc
      · exact Or.inl (by simp [hc])
      · rcases ih hc with hc2 | hc2
        · exact Or.inl (List.mem_cons_of_mem a hc2)
        · exact Or.inr hc2

theorem mem_swAux {w : List Char} {c : Char} :
    ∀ {l : List Char} {b : Bool} {k : Nat}, c ∈ swAux w l b k → c ∈ l := by
  intro l
  induction l with
  | nil =>
    intro b k h
    cases h
  | cons a rest ih =>
    intro b k h
    cases k with
    | succ m => exact List.mem_cons_of_mem a (ih h)
    | zero =>
      simp only [swAux] at h
      by_cases hcond : (decide (w ≠ []) && !b && w.isPrefixOf (a :: rest) &&
          !headIsWord ((a :: rest).drop w.length)) = true
      · rw [if_pos hcond] at h
        exact List.mem_cons_of_mem a (ih h)
      · rw [if_neg hcond] at h
        rcases List.mem_cons.mp h with hc | hc
        · exact by simp [hc]
        · exact List.mem_cons_of_mem a (ih hc)

theorem mem_foldl_subWord {c : Char} {ws : List String} :
    ∀ {l : List Char},
      c ∈ ws.foldl (fun acc w => subWord w.toList acc) l → c ∈ l := by
  induction ws with
  | nil => intro l h; exact h
  | cons w rest ih =>
    intro l h
    simp only [List.foldl_cons] at h
    exact mem_swAux (ih h)

theorem mem_stripL {c : Char} {l : List Char} (h : c ∈ stripL l) : c ∈ l := by
  unfold stripL at h
  rw [List.mem_reverse] at h
  have h2 := (List.dropWhile_sublist isPySpace).subset h
  rw [List.mem_reverse] at h2
  exact (List.dropWhile_sublist isPySpace).subset h2

theorem uFixed_remove_noise (s : String) : UFixed (remove_noise s).toList := by
  unfold remove_noise
  rw [toList_mk]
  intro c hc
  have h1 := mem_stripL hc
  rcases mem_cwAux h1 with h2 | h2
  · have h3 := mem_foldl_subWord h2
    rcases mem_csAux h3 with h4 | h4
    · rcases mem_rpAux h4 with h5 | ⟨p, hp, _⟩
      · exact uFixed_upperL s.toList c h5
      · cases hp
    · rw [h4]
      decide
  · rw [h2]
    decide

theorem upperL_fixed_uf {l : List Char} (h : UFixed l) : upperL l = l := by
  induction l with
  | nil => rfl
  | cons c rest ih =>
    simp only [upperL, List.map_cons]
    rw [h c (by simp)]
    have := ih (fun x hx => h x (by simp [hx]))
    simp only [upperL] at this
    rw [this]

theorem remove_noise_upper (s : String) :
    pyUpper (remove_noise s) = remove_noise s := by
  unfold pyUpper
  rw [upperL_fixed_uf (uFixed_remove_noise s)]
  exact mk_toList _

theorem normalize_text_cleaned (raw : String) :
    normalize_text (cleanedOf raw) = cleanedOf raw := by
  unfold normalize_text
  have h1 : pyStrip (cleanedOf raw) = cleanedOf raw := by
    unfold cleanedOf
    exact remove_noise_stripped _
  rw [h1]
  unfold cleanedOf
  exact remove_noise_upper _

/-!  ## Claim C2 -/

/-- First of two registry records sharing the port name `Victoria`. -/
def victoriaARec : PortRec :=
  ⟨"AAVIC", "Victoria", "Aland", "AA", "VIC", Rat.mk' 1 1, Rat.mk' 1 1⟩

/-- Second record with the same port name but another country. -/
def victoriaBRec : PortRec :=
  ⟨"ABVIC", "Victoria", "Bland", "AB", "VIC", Rat.mk' 2 1, Rat.mk' 2 1⟩

/-- Registry with a duplicated port name (the spec's two-Victorias case). -/
def victoriaReg : Registry := [victoriaARec, victoriaBRec]

/-- C2 (amended): for every record whose port name survives cleaning as its
upper-cased self, `decode(record.portName)` hits Stage A and returns the
first record of that name's `byPortName` bucket in dataset insertion order
(the record itself exactly when no earlier record carries the same
upper-cased name). -/
theorem C2_exact_name_first (reg : Registry) (r : PortRec)
    (hmem : r ∈ reg)
    (hclean : cleanedOf r.port = pyUpper r.port)
    (hne : pyUpper r.port ≠ "") :
    ∃ r0 l1 l2, reg = l1 ++ r0 :: l2 ∧
      (∀ p ∈ l1, pyUpper p.port ≠ pyUpper r.port) ∧
      pyUpper r0.port = pyUpper r.port ∧
      match_destination reg r.port = formatRec r.port r0 := by
  have hnt : normalize_text (pyUpper r.port) = pyUpper r.port := by
    rw [← hclean]
    exact normalize_text_cleaned r.port
  obtain ⟨r0, hr0⟩ : ∃ r0, (byName reg (pyUpper r.port)).head? = some r0 := by
    have hmemf : r ∈ byName reg (pyUpper r.port) := by
      unfold byName
      exact List.mem_filter.mpr ⟨hmem, by simp⟩
    cases hcase : (byName reg (pyUpper r.port)).head? with
    | none =>
      rw [List.head?_eq_none_iff] at hcase
      rw [hcase] at hmemf
      cases hmemf
    | some x => exact ⟨x, rfl⟩
  have hr0f := hr0
  unfold byName at hr0f
  obtain ⟨l1, l2, hsplit, hl1, hr0p⟩ := head_filter_decomp hr0f
  refine ⟨r0, l1, l2, hsplit, ?_, ?_, ?_⟩
  · intro p hp he
    have hfalse := hl1 p hp
    rw [he] at hfalse
    simp at hfalse
  · simpa using hr0p
  · unfold match_destination
    rw [hclean, if_neg hne]
    unfold stagedMatch
    rw [hnt, hr0]

/-- Witness: the first Victoria record round-trips through Stage A. -/
theorem C2_witness :
    ∃ r0 l1 l2, victoriaReg = l1 ++ r0 :: l2 ∧
      (∀ p ∈ l1, pyUpper p.port ≠ pyUpper victoriaARec.port) ∧
      pyUpper r0.port = pyUpper victoriaARec.port ∧
      match_destination victoriaReg victoriaARec.port = formatRec victoriaARec.port r0 :=
  C2_exact_name_first victoriaReg victoriaARec (by decide) (by decide) (by decide)

/-- Counterexample to C2 as stated: the second Victoria record's exact name
decodes to the first Victoria record, not to itself — the call matches, but
the returned country and coordinates belong to the other record. -/
theorem C2_counterexample :
    victoriaBRec ∈ victoriaReg ∧
    victoriaBRec.port = victoriaARec.port ∧
    victoriaARec ≠ victoriaBRec ∧
    (match_destination victoriaReg victoriaBRec.port).matched = true ∧
    match_destination victoriaReg victoriaBRec.port = formatRec victoriaBRec.port victoriaARec ∧
    match_destination victoriaReg victoriaBRec.port ≠ formatRec victoriaBRec.port victoriaBRec ∧
    (match_destination victoriaReg victoriaBRec.port).country ≠ some victoriaBRec.country := by
  decide

/-!  ## Claim C3: totality and failure encoding -/

theorem head?_some_mem {α : Type} {l : List α} {x : α}
    (h : l.head? = some x) : x ∈ l := by
  cases l with
  | nil => cases h
  | cons a rest =>
    rw [List.head?_cons, Option.some_inj] at h
    simp [h]

theorem getLast?_some_mem {α : Type} {l : List α} {x : α}
    (h : l.getLast? = some x) : x ∈ l := by
  rw [List.getLast?_eq_head?_reverse] at h
  exact List.mem_reverse.mp (head?_some_mem h)

theorem mem_insDesc {x y : PortRec × ℚ} :
    ∀ {l : List (PortRec × ℚ)}, x ∈ insDesc y l → x = y ∨ x ∈ l := by
  intro l
  induction l with
  | nil =>
    intro h
    simp only [insDesc] at h
    exact Or.inl (by simpa using h)
  | cons a rest ih =>
    intro h
    simp only [insDesc] at h
    by_cases hc : a.2 ≤ y.2
    · rw [if_pos hc] at h
      rcases List.mem_cons.mp h with hx | hx
      · exact Or.inl hx
      · exact Or.inr hx
    · rw [if_neg hc] at h
      rcases List.mem_cons.mp h with hx | hx
      · exact Or.inr (by simp [hx])
      · rcases ih hx with hx2 | hx2
        · exact Or.inl hx2
        · exact Or.inr (List.mem_cons_of_mem a hx2)

theorem mem_sortDesc {x : PortRec × ℚ} :
    ∀ {l : List (PortRec × ℚ)}, x ∈ sortDesc l → x ∈ l := by
  intro l
  induction l with
  | nil => intro h; cases h
  | cons a rest ih =>
    intro h
    simp only [sortDesc, List.foldr_cons] at h
    rcases mem_insDesc h with hx | hx
    · simp [hx]
    · have := ih (by simpa [sortDesc] using hx)
      exact List.mem_cons_of_mem a this

theorem fuzzy_match_mem {reg : Registry} {q : String} {cf : Option String}
    {θ : ℚ} {r : PortRec} (h : r ∈ fuzzy_match_port_name reg q cf θ) :
    r ∈ reg := by
  unfold fuzzy_match_port_name at h
  obtain ⟨⟨p, sc⟩, hmem, hfst⟩ := List.mem_map.mp h
  have hscored := mem_sortDesc hmem
  unfold fuzzyScored at hscored
  obtain ⟨p2, hp2mem, hp2⟩ := List.mem_filterMap.mp hscored
  have hpp : p2 = p := by
    by_cases hθ : θ ≤ fuzzyScore q p2.port
    · rw [if_pos hθ, Option.some_inj] at hp2
      exact congrArg Prod.fst hp2
    · rw [if_neg hθ] at hp2
      cases hp2
  subst hpp
  rw [← hfst]
  show p2 ∈ reg
  cases cf with
  | none => exact hp2mem
  | some cn => exact (List.mem_filter.mp hp2mem).1

theorem stageB_mem {reg : Registry} {cleaned : String} {r : PortRec}
    (h : stageB reg cleaned = some r) : r ∈ reg := by
  unfold stageB at h
  by_cases hic : isCode5 (compactCode cleaned) = true
  · rw [if_pos hic] at h
    unfold byCode at h
    exact (List.mem_filter.mp (getLast?_some_mem h)).1
  · rw [if_neg hic] at h
    cases h

theorem stageC_mem {reg : Registry} {cn portText : String} {r : PortRec}
    (h : stageC reg cn portText = some r) : r ∈ reg := by
  unfold stageC at h
  exact fuzzy_match_mem (head?_some_mem h)

theorem stageD_mem {reg : Registry} {cleaned : String} {r : PortRec}
    (h : stageD reg cleaned = some r) : r ∈ reg := by
  unfold stageD at h
  exact fuzzy_match_mem (head?_some_mem h)

theorem stageE_mem {reg : Registry} {cleaned : String} {r : PortRec}
    (h : stageE reg cleaned = some r) : r ∈ reg := by
  unfold stageE at h
  by_cases hc : ((compactCode cleaned).toList.length = 3 &&
      (compactCode cleaned).toList.all Char.isAlpha) = true
  · rw [if_pos hc] at h
    unfold byPortCode at h
    exact (List.mem_filter.mp (head?_some_mem h)).1
  · rw [if_neg hc] at h
    cases h

theorem match_destination_shape (reg : Registry) (raw : String) :
    match_destination reg raw = unmatched raw ∨
      ∃ r ∈ reg, match_destination reg raw = formatRec raw r := by
  unfold match_destination
  by_cases hc : cleanedOf raw = ""
  · rw [if_pos hc]
    exact Or.inl rfl
  · rw [if_neg hc]
    unfold stagedMatch
    cases hA : (byName reg (normalize_text (cleanedOf raw))).head? with
    | some r =>
      refine Or.inr ⟨r, ?_, rfl⟩
      exact (List.mem_filter.mp (head?_some_mem hA)).1
    | none =>
      cases hB : stageB reg (cleanedOf raw) with
      | some r => exact Or.inr ⟨r, stageB_mem hB, rfl⟩
      | none =>
        cases hec : (extract_country reg (cleanedOf raw)).1 with
        | some cn =>
          simp only []
          cases hC : stageC reg cn (extract_country reg (cleanedOf raw)).2 with
          | some r => exact Or.inr ⟨r, stageC_mem hC, rfl⟩
          | none =>
            cases hD : stageD reg (cleanedOf raw) with
            | some r => exact Or.inr ⟨r, stageD_mem hD, rfl⟩
            | none =>
              cases hE : stageE reg (cleanedOf raw) with
              | some r => exact Or.inr ⟨r, stageE_mem hE, rfl⟩
              | none => exact Or.inl rfl
        | none =>
          simp only []
          cases hD : stageD reg (cleanedOf raw) with
          | some r => exact Or.inr ⟨r, stageD_mem hD, rfl⟩
          | none =>
            cases hE : stageE reg (cleanedOf raw) with
            | some r => exact Or.inr ⟨r, stageE_mem hE, rfl⟩
            | none => exact Or.inl rfl

/-- C3: `decode` is a total function returning a `DecodeResult` for every
input: the raw input is echoed verbatim; the only possible outcomes are the
unmatched result or a formatted registry record; a `matched=false` outcome
is exactly the plain unmatched value with no location fields (never an
exception — in the embedding, totality itself is witnessed by `decode`
being a Lean function); empty cleaned input yields `matched=false`; and the
JS wrapper short-circuits nullish/non-string and empty inputs to a
`matched=false` result. -/
theorem C3_total_decode (reg : Registry) (raw : String) :
    (match_destination reg raw).rawInput = raw ∧
    ((match_destination reg raw).matched = false →
      match_destination reg raw = unmatched raw) ∧
    (match_destination reg raw = unmatched raw ∨
      ∃ r ∈ reg, match_destination reg raw = formatRec raw r) ∧
    (cleanedOf raw = "" → match_destination reg raw = unmatched raw) ∧
    (∀ o : Option String,
      (o = none ∨ o = some "" ∨ ∃ s, o = some s ∧ pyUpper (pyStrip s) = "") →
      ∃ d, destGuard o = Sum.inl d ∧ d.matched = false) := by
  have hshape := match_destination_shape reg raw
  refine ⟨?_, ?_, hshape, ?_, ?_⟩
  · rcases hshape with h | ⟨r, _, h⟩ <;> rw [h] <;> rfl
  · intro hm
    rcases hshape with h | ⟨r, _, h⟩
    · exact h
    · rw [h] at hm
      cases hm
  · intro hc
    unfold match_destination
    rw [if_pos hc]
  · intro o ho
    rcases ho with rfl | rfl | ⟨s, rfl, hs⟩
    · exact ⟨unmatched "Unknown", rfl, rfl⟩
    · exact ⟨unmatched "Unknown", rfl, rfl⟩
    · by_cases hse : s = ""
      · subst hse
        exact ⟨unmatched "Unknown", rfl, rfl⟩
      · refine ⟨unmatched "Unknown", ?_, rfl⟩
        simp only [destGuard]
        rw [if_neg hse, if_pos hs]

/-- Witness: `TBA` is pure noise, so the decode succeeds with
`matched=false`; a whitespace-only JS input short-circuits. -/
theorem C3_witness :
    match_destination sampleReg "TBA" = unmatched "TBA" ∧
    (∃ d, destGuard (some "   ") = Sum.inl d ∧ d.matched = false) :=
  ⟨(C3_total_decode sampleReg "TBA").2.2.2.1 (by decide),
   (C3_total_decode sampleReg "TBA").2.2.2.2 (some "   ")
     (Or.inr (Or.inr ⟨"   ", rfl, by decide⟩))⟩

/-!  ## Claim C4 -/

theorem find?_first {p : String → Bool} {a : String} :
    ∀ {l1 : List String} {l2 : List String}, p a = true →
      (∀ b ∈ l1, p b = false) → (l1 ++ a :: l2).find? p = some a := by
  intro l1
  induction l1 with
  | nil =>
    intro l2 ha _
    rw [List.nil_append]
    exact List.find?_cons_of_pos l2 ha
  | cons b rest ih =>
    intro l2 ha h1
    rw [List.cons_append]
    rw [List.find?_cons_of_neg]
    · exact ih ha (fun x hx => h1 x (by simp [hx]))
    · simp [h1 b (by simp)]

/-- Follows the claim's words, for the refinement comparison only: split on
the separator chosen by priority, keep the non-empty segments, return the
last one trimmed (the source instead returns the last segment even when it
is empty). -/
def extractFinalLegClaim (text : String) : String :=
  match ARROWS.find? (fun a => substrB a.toList text.toList) with
  | some a => pyStrip (((pySplit text a).filter (fun q => q != "")).getLastD "")
  | none =>
    if hasWordTO text then
      pyStrip (((splitWordTO text).filter (fun q => q != "")).getLastD "")
    else text

/-- C4 (amended): the extractor scans the fixed separator list in priority
order (not by position in the string): the first listed separator occurring
anywhere in the text decides the split, the text is split on all its
occurrences and the last segment — possibly empty — is returned trimmed;
when no arrow occurs but the word-boundary keyword `TO` does, `TO` splits
the same way; when no separator at all occurs the input is returned
unchanged. -/
theorem C4_extract_final_leg (text : String) :
    (∀ l1 l2 a, ARROWS = l1 ++ a :: l2 →
        substrB a.toList text.toList = true →
        (∀ b ∈ l1, substrB b.toList text.toList = false) →
        extract_destination_from_route text =
          pyStrip ((pySplit text a).getLastD "")) ∧
    ((∀ a ∈ ARROWS, substrB a.toList text.toList = false) →
      hasWordTO text = true →
      extract_destination_from_route text =
        pyStrip ((splitWordTO text).getLastD "")) ∧
    ((∀ a ∈ ARROWS, substrB a.toList text.toList = false) →
      hasWordTO text = false →
      extract_destination_from_route text = text) := by
  refine ⟨?_, ?_, ?_⟩
  · intro l1 l2 a he ha h1
    unfold extract_destination_from_route
    rw [he, find?_first ha h1]
  · intro hnone hto
    unfold extract_destination_from_route
    rw [List.find?_eq_none.mpr (fun a ha => by rw [hnone a ha]; simp)]
    rw [hto]
    simp
  · intro hnone hto
    unfold extract_destination_from_route
    rw [List.find?_eq_none.mpr (fun a ha => by rw [hnone a ha]; simp)]
    rw [hto]
    simp

/-- Witness: the arrow case at the spec's `BEZEE <> GBHUL` scenario and the
unchanged case at a plain name. -/
theorem C4_witness :
    extract_destination_from_route "BEZEE <> GBHUL" =
      pyStrip ((pySplit "BEZEE <> GBHUL" "<>").getLastD "") ∧
    extract_destination_from_route "VICTORIA" = "VICTORIA" :=
  ⟨(C4_extract_final_leg "BEZEE <> GBHUL").1 [] [">>", "-->", "=>", "->", ">"]
      "<>" rfl (by decide) (by decide),
   (C4_extract_final_leg "VICTORIA").2.2 (by decide) (by decide)⟩

/-- Counterexample to C4 as stated: on `A>>` the split yields segments `A`
and the empty string; the last non-empty segment is `A`, but the source
returns the last segment, which is empty. -/
theorem C4_counterexample :
    extract_destination_from_route "A>>" = "" ∧
    extractFinalLegClaim "A>>" = "A" ∧
    extract_destination_from_route "A>>" ≠ extractFinalLegClaim "A>>" := by
  decide

/-!  ## Claim C5 -/

/-- Relation between neighbours: not both whitespace. -/
def wsRel (a b : Char) : Prop := ¬(isPySpace a = true ∧ isPySpace b = true)

/-- No two adjacent whitespace characters, stated positionally so that the
proposition elaborates without evaluating the list. -/
def noAdjWS (l : List Char) : Prop :=
  ∀ (i : Nat) (h : i + 1 < l.length),
    wsRel (l.get ⟨i, by omega⟩) (l.get ⟨i + 1, h⟩)

theorem noAdjWS_of_chain {l : List Char} (h : List.Chain' wsRel l) :
    noAdjWS l := by
  intro i hi
  exact List.chain'_iff_get.mp h i (by omega)

theorem chain_cwAux : ∀ (l : List Char) (b : Bool),
    List.Chain' wsRel (cwAux l b) ∧
    (b = true → ∀ c, (cwAux l b).head? = some c → isPySpace c = false) := by
  intro l
  induction l with
  | nil => intro b; exact ⟨List.chain'_nil, fun _ c hc => by cases hc⟩
  | cons a rest ih =>
    intro b
    by_cases hsp : isPySpace a = true
    · by_cases hb : b = true
      · have : cwAux (a :: rest) b = cwAux rest true := by
          subst hb
          simp only [cwAux, hsp, if_true]
        rw [this]
        exact ⟨(ih true).1, fun _ => (ih true).2 rfl⟩
      · have hbf : b = false := by revert hb; cases b <;> simp
        subst hbf
        have : cwAux (a :: rest) false = ' ' :: cwAux rest true := by
          simp only [cwAux, hsp, if_true, Bool.false_eq_true, if_false]
        rw [this]
        constructor
        · rw [List.chain'_cons']
          refine ⟨?_, (ih true).1⟩
          intro y hy
          have := (ih true).2 rfl y hy
          intro hcon
          rw [this] at hcon
          exact absurd hcon.2 (by simp)
        · intro hcon
          cases hcon
    · have : cwAux (a :: rest) b = a :: cwAux rest false := by
        simp only [cwAux, hsp, Bool.false_eq_true, if_false]
      rw [this]
      constructor
      · rw [List.chain'_cons']
        refine ⟨?_, (ih false).1⟩
        intro y _ hcon
        exact absurd hcon.1 hsp
      · intro _ c hc
        rw [List.head?_cons, Option.some_inj] at hc
        rw [hc] at hsp
        exact Bool.eq_false_iff.mpr hsp

theorem chainWS_reverse {l : List Char} (h : List.Chain' wsRel l) :
    List.Chain' wsRel l.reverse := by
  rw [List.chain'_reverse]
  exact List.Chain'.imp (fun a b hab hcon => hab ⟨hcon.2, hcon.1⟩) h

theorem chainWS_dropWhile {p : Char → Bool} {l : List Char}
    (h : List.Chain' wsRel l) : List.Chain' wsRel (l.dropWhile p) := by
  rw [← List.takeWhile_append_dropWhile p l] at h
  exact (List.chain'_append.mp h).2.1

theorem chainWS_stripL {l : List Char} (h : List.Chain' wsRel l) :
    List.Chain' wsRel (stripL l) := by
  unfold stripL
  exact chainWS_reverse (chainWS_dropWhile (chainWS_reverse (chainWS_dropWhile h)))

theorem isPrefixOf_self_append (w y : List Char) :
    w.isPrefixOf (w ++ y) = true :=
  List.isPrefixOf_iff_prefix.mpr ⟨y, rfl⟩

theorem swAux_skip (w : List Char) :
    ∀ (u : List Char), u ≠ [] → ∀ (y : List Char) (b : Bool),
      swAux w (u ++ y) b u.length = swAux w y true 0 := by
  intro u
  induction u with
  | nil => intro h; exact absurd rfl h
  | cons d u' ih =>
    intro _ y b
    show swAux w (d :: (u' ++ y)) b (u'.length + 1) = swAux w y true 0
    rw [show swAux w (d :: (u' ++ y)) b (u'.length + 1)
      = swAux w (u' ++ y) true u'.length from rfl]
    by_cases hu : u' = []
    · subst hu
      rfl
    · exact ih hu y true

theorem swAux_flag (w y : List Char) (hw : headIsWord w = true)
    (hy : headIsWord y = false) : swAux w y true 0 = swAux w y false 0 := by
  cases y with
  | nil => rfl
  | cons c rest =>
    have hc : isWordChar c = false := hy
    cases w with
    | nil => cases hw
    | cons w0 w' =>
      have hw0 : isWordChar w0 = true := hw
      have hne : (w0 == c) = false := by
        apply beq_eq_false_iff_ne.mpr
        intro he
        rw [he, hc] at hw0
        cases hw0
      have hpre : (w0 :: w').isPrefixOf (c :: rest) = false := by
        rw [show (w0 :: w').isPrefixOf (c :: rest)
          = ((w0 == c) && w'.isPrefixOf rest) from rfl, hne]
        rfl
      have h1 : (decide ((w0 :: w') ≠ []) && !true &&
          (w0 :: w').isPrefixOf (c :: rest) &&
          !headIsWord ((c :: rest).drop (w0 :: w').length)) = false := by
        simp
      have h2 : (decide ((w0 :: w') ≠ []) && !false &&
          (w0 :: w').isPrefixOf (c :: rest) &&
          !headIsWord ((c :: rest).drop (w0 :: w').length)) = false := by
        simp [hpre]
      simp only [swAux, h1, h2, Bool.false_eq_true, if_false]

theorem subWord_head_removal (w y : List Char) (hwne : w ≠ [])
    (hw : headIsWord w = true) (hy : headIsWord y = false) :
    subWord w (w ++ y) = subWord w y := by
  cases w with
  | nil => exact absurd rfl hwne
  | cons w0 w' =>
    unfold subWord
    have hpre : (w0 :: w').isPrefixOf (w0 :: (w' ++ y)) = true :=
      isPrefixOf_self_append (w0 :: w') y
    have hdrop : (w0 :: (w' ++ y)).drop (w0 :: w').length = y :=
      List.drop_left (w0 :: w') y
    have hcond : (decide ((w0 :: w') ≠ []) && !false &&
        (w0 :: w').isPrefixOf (w0 :: (w' ++ y)) &&
        !headIsWord ((w0 :: (w' ++ y)).drop (w0 :: w').length)) = true := by
      rw [hpre, hdrop, hy]
      simp
    simp only [List.cons_append]
    simp only [swAux, hcond, if_true]
    simp only [List.length_cons, Nat.add_sub_cancel]
    by_cases hu : w' = []
    · subst hu
      exact swAux_flag (w0 :: []) y hw hy
    · rw [swAux_skip (w0 :: w') w' hu y true]
      exact swAux_flag (w0 :: w') y hw hy

theorem hwOcc_false_fixed (w : List Char) :
    ∀ (l : List Char) (b : Bool), hwOcc w l b = false → swAux w l b 0 = l := by
  intro l
  induction l with
  | nil => intro b _; rfl
  | cons c rest ih =>
    intro b h
    simp only [hwOcc] at h
    rw [Bool.or_eq_false_iff] at h
    simp only [swAux, h.1, Bool.false_eq_true, if_false]
    rw [ih (isWordChar c) h.2]

set_option maxHeartbeats 1000000 in
/-- C5: noise removal is case-insensitive (the cleaner depends on the input
only through its upper-cased character list); every configured noise token
standing at whole-word boundaries is genuinely deleted (a noise word at a
boundary, followed by a non-word character or the end, is removed and the
scan continues identically on the rest, for every noise word and every
tail); removal happens ONLY on whole-word boundaries: when no noise word
occurs at word boundaries anywhere in the symbol-collapsed upper-cased
text — in particular inside a real multi-word port name such as
`PORT ANCHORAGE` — the word-removal passes change nothing and the result
is just the parenthesis/symbol/whitespace normalization; a purely
alphabetic name of any case passes through unchanged apart from
upper-casing; the result is whitespace-collapsed (no two adjacent
whitespace characters) and stripped; the empty string normalizes to the
empty string; and concretely the trailing noise of `GIBRALTAR EAST ANCH`
and the lower-case leading noise of `tba Hull` are removed. -/
theorem C5_remove_noise (s : String) :
    remove_noise "" = "" ∧
    (∀ t : String, upperL s.toList = upperL t.toList →
      remove_noise s = remove_noise t) ∧
    (∀ n ∈ NOISE_WORDS, ∀ y : List Char, headIsWord y = false →
      subWord n.toList (n.toList ++ y) = subWord n.toList y) ∧
    ((∀ n ∈ NOISE_WORDS,
        hwOcc n.toList (collapseSyms (removeParens (upperL s.toList))) false
          = false) →
      remove_noise s = String.mk (stripL (collapseWs
        (collapseSyms (removeParens (upperL s.toList)))))) ∧
    ((∀ c ∈ s.toList, c.isAlpha = true) → pyUpper s ∉ NOISE_WORDS →
      remove_noise s = pyUpper s) ∧
    pyStrip (remove_noise s) = remove_noise s ∧
    noAdjWS (remove_noise s).toList ∧
    remove_noise "GIBRALTAR EAST ANCH" = "GIBRALTAR EAST" ∧
    remove_noise "tba Hull" = "HULL" := by
  refine ⟨by decide, ?_, ?_, ?_, ?_, remove_noise_stripped s, ?_,
    by decide, by decide⟩
  · intro t h
    unfold remove_noise
    rw [h]
  · intro n hn y hy
    have hprops : ∀ m ∈ NOISE_WORDS,
        m.toList ≠ [] ∧ headIsWord m.toList = true := by decide
    exact subWord_head_removal n.toList y (hprops n hn).1 (hprops n hn).2 hy
  · intro hno
    unfold remove_noise
    rw [foldl_subWord_fixed (fun n hn =>
      hwOcc_false_fixed n.toList _ false (hno n hn))]
  · intro halpha hnw
    have hup : ∀ c ∈ upperL s.toList, c.isUpper = true := by
      intro c hc
      obtain ⟨d, hd, hdc⟩ := List.mem_map.mp hc
      rw [← hdc]
      exact isUpper_toUpper_of_isAlpha (halpha d hd)
    have hne : ∀ w ∈ NOISE_WORDS, upperL s.toList ≠ w.toList := by
      intro w hw he
      apply hnw
      have : pyUpper s = w := by
        unfold pyUpper
        rw [he]
        rfl
      rw [this]
      exact hw
    unfold remove_noise pyUpper
    unfold removeParens collapseSyms collapseWs
    rw [rpAux_no_paren (fun c hc => ne_lparen_of_isUpper (hup c hc))]
    rw [csAux_no_sym (fun c hc => isSymChar_of_isUpper (hup c hc))]
    rw [foldl_subWord_fixed (fun w hw =>
      subWord_fixed (fun c hc => isWordChar_of_isUpper (hup c hc)) (hne w hw))]
    rw [cwAux_no_space (fun c hc => isPySpace_of_isUpper (hup c hc))]
    rw [stripL_fixed (fun c hc => isPySpace_of_isUpper (hup c hc))]
  · have hch : List.Chain' wsRel (stripL (collapseWs
        (NOISE_WORDS.foldl (fun acc w => subWord w.toList acc)
          (collapseSyms (removeParens (upperL s.toList)))))) :=
      chainWS_stripL (chain_cwAux _ false).1
    exact noAdjWS_of_chain hch

/-- Witness: mixed-case and upper-case inputs clean identically; the noise
word `ANCH` at a word boundary is deleted ahead of an arbitrary non-word
tail; the multi-word name `PORT ANCHORAGE` — which contains the noise
substring `ANCH` inside a word — is left untouched by the word-removal
passes; and a purely alphabetic name passes through upper-cased. -/
theorem C5_witness :
    remove_noise "Tba Hull" = remove_noise "TBA HULL" ∧
    subWord "ANCH".toList ("ANCH".toList ++ [' ', 'X']) =
      subWord "ANCH".toList [' ', 'X'] ∧
    remove_noise "PORT ANCHORAGE" = String.mk (stripL (collapseWs
      (collapseSyms (removeParens (upperL "PORT ANCHORAGE".toList))))) ∧
    remove_noise "Anchorage" = pyUpper "Anchorage" :=
  ⟨(C5_remove_noise "Tba Hull").2.1 "TBA HULL" (by decide),
   (C5_remove_noise "x").2.2.1 "ANCH" (by decide) [' ', 'X'] (by decide),
   (C5_remove_noise "PORT ANCHORAGE").2.2.2.1 (by decide),
   (C5_remove_noise "Anchorage").2.2.2.2.1 (by decide) (by decide)⟩

/-!  ## Claim C6 -/

/-- C6: the country resolver checks the last token of the
whitespace/comma/hyphen-split text first — a case-insensitive exact match
against the registry's known country names promotes it to the country and
joins the remaining tokens as the port-name candidate; only if the last
token fails is the first token tried the same way; otherwise no country is
resolved and the full text is returned unchanged.  The three cases are
exhaustive and mutually exclusive, so at most one check fires, and the
membership test is exactly "some registry record's upper-cased country name
equals the upper-cased token". -/
theorem C6_extract_country (reg : Registry) (text : String) :
    ((countryNames reg).contains (pyUpper ((splitCtrySeps text).getLastD "")) = true →
      extract_country reg text =
        (some (pyUpper ((splitCtrySeps text).getLastD "")),
         String.intercalate " " (splitCtrySeps text).dropLast)) ∧
    ((countryNames reg).contains (pyUpper ((splitCtrySeps text).getLastD "")) = false →
      (countryNames reg).contains (pyUpper ((splitCtrySeps text).headD "")) = true →
      extract_country reg text =
        (some (pyUpper ((splitCtrySeps text).headD "")),
         String.intercalate " " (splitCtrySeps text).tail)) ∧
    ((countryNames reg).contains (pyUpper ((splitCtrySeps text).getLastD "")) = false →
      (countryNames reg).contains (pyUpper ((splitCtrySeps text).headD "")) = false →
      extract_country reg text = (none, text)) ∧
    (∀ cn : String, (countryNames reg).contains cn = true ↔
      ∃ r ∈ reg, pyUpper r.country = cn) := by
  refine ⟨?_, ?_, ?_, ?_⟩
  · intro hlast
    unfold extract_country
    rw [hlast]
    simp
  · intro hlast hfirst
    unfold extract_country
    rw [hlast, hfirst]
    simp
  · intro hlast hfirst
    unfold extract_country
    rw [hlast, hfirst]
    simp
  · intro cn
    constructor
    · intro h
      have hmem : cn ∈ countryNames reg := List.elem_iff.mp h
      obtain ⟨r, hr, hrc⟩ := List.mem_map.mp hmem
      exact ⟨r, hr, hrc⟩
    · intro ⟨r, hr, hrc⟩
      apply List.elem_iff.mpr
      exact List.mem_map.mpr ⟨r, hr, hrc⟩

/-- Witness: `DAMPIER, ALAND` resolves the trailing country and keeps
`DAMPIER`; a bare name resolves no country and is returned unchanged. -/
theorem C6_witness :
    extract_country victoriaReg "DAMPIER, ALAND" = (some "ALAND", "DAMPIER") ∧
    extract_country victoriaReg "DAMPIER" = (none, "DAMPIER") :=
  ⟨by
    have h := (C6_extract_country victoriaReg "DAMPIER, ALAND").1 (by decide)
    rw [h]
    decide,
   by
    have h := (C6_extract_country victoriaReg "DAMPIER").2.2.1 (by decide) (by decide)
    rw [h]⟩

/-!  ## Claim C7: the similarity scorer -/

theorem foldl_inv {α β : Type} (P : β → Prop) (f : β → α → β)
    (hstep : ∀ acc x, P acc → P (f acc x)) :
    ∀ (l : List α) (init : β), P init → P (l.foldl f init) := by
  intro l
  induction l with
  | nil => intro init h; exact h
  | cons x rest ih =>
    intro init h
    rw [List.foldl_cons]
    exact ih (f init x) (hstep init x h)

theorem cpl_le_left : ∀ (a b : List Char), cpl a b ≤ a.length := by
  intro a
  induction a with
  | nil => intro b; cases b <;> simp [cpl]
  | cons x as ih =>
    intro b
    cases b with
    | nil => simp [cpl]
    | cons y bs =>
      simp only [cpl, List.length_cons]
      by_cases h : x = y
      · rw [if_pos h]
        have := ih bs
        omega
      · rw [if_neg h]
        omega

theorem cpl_le_right : ∀ (a b : List Char), cpl a b ≤ b.length := by
  intro a
  induction a with
  | nil => intro b; cases b <;> simp [cpl]
  | cons x as ih =>
    intro b
    cases b with
    | nil => simp [cpl]
    | cons y bs =>
      simp only [cpl, List.length_cons]
      by_cases h : x = y
      · rw [if_pos h]
        have := ih bs
        omega
      · rw [if_neg h]
        omega

theorem flm_bound (a b : List Char) :
    (flm a b).1 + (flm a b).2.1 ≤ a.length ∧
    (flm a b).1 + (flm a b).2.2 ≤ b.length := by
  unfold flm
  refine foldl_inv
    (fun best => best.1 + best.2.1 ≤ a.length ∧ best.1 + best.2.2 ≤ b.length)
    (fun best i =>
      (List.range b.length).foldl
        (fun best j =>
          let k := cpl (a.drop i) (b.drop j)
          if best.1 < k then (k, i, j) else best)
        best)
    ?_ (List.range a.length) (0, 0, 0) (by simp)
  intro acc i hacc
  refine foldl_inv
    (fun best => best.1 + best.2.1 ≤ a.length ∧ best.1 + best.2.2 ≤ b.length)
    (fun best j =>
      let k := cpl (a.drop i) (b.drop j)
      if best.1 < k then (k, i, j) else best)
    ?_ (List.range b.length) acc hacc
  intro acc2 j hacc2
  simp only []
  by_cases hlt : acc2.1 < cpl (a.drop i) (b.drop j)
  · rw [if_pos hlt]
    have h1 := cpl_le_left (a.drop i) (b.drop j)
    have h2 := cpl_le_right (a.drop i) (b.drop j)
    rw [List.length_drop] at h1 h2
    constructor <;> (simp only []; omega)
  · rw [if_neg hlt]
    exact hacc2

theorem mtF_le (n : Nat) : ∀ (a b : List Char),
    mtF n a b ≤ a.length ∧ mtF n a b ≤ b.length := by
  induction n with
  | zero => intro a b; simp [mtF]
  | succ m ih =>
    intro a b
    simp only [mtF]
    by_cases hk : (flm a b).1 = 0
    · rw [if_pos hk]
      simp
    · rw [if_neg hk]
      obtain ⟨hA, hB⟩ := flm_bound a b
      obtain ⟨hl1, hl2⟩ := ih (a.take (flm a b).2.1) (b.take (flm a b).2.2)
      obtain ⟨hr1, hr2⟩ :=
        ih (a.drop ((flm a b).2.1 + (flm a b).1)) (b.drop ((flm a b).2.2 + (flm a b).1))
      rw [List.length_take] at hl1
      rw [List.length_take] at hl2
      rw [List.length_drop] at hr1
      rw [List.length_drop] at hr2
      constructor <;> omega

theorem matchTotal_le_left (a b : List Char) : matchTotal a b ≤ a.length :=
  (mtF_le a.length a b).1

theorem matchTotal_le_right (a b : List Char) : matchTotal a b ≤ b.length :=
  (mtF_le a.length a b).2

theorem pyRatio_nonneg (a b : List Char) : 0 ≤ pyRatio a b := by
  unfold pyRatio
  by_cases h : a.length + b.length = 0
  · rw [if_pos h]
    norm_num
  · rw [if_neg h]
    positivity

theorem pyRatio_le_one (a b : List Char) : pyRatio a b ≤ 1 := by
  unfold pyRatio
  by_cases h : a.length + b.length = 0
  · rw [if_pos h]
  · rw [if_neg h]
    have hpos : 0 < (a.length : ℚ) + (b.length : ℚ) := by
      have hn : 0 < a.length + b.length := Nat.pos_of_ne_zero h
      exact_mod_cast hn
    rw [div_le_one hpos]
    have h1 := matchTotal_le_left a b
    have h2 := matchTotal_le_right a b
    have hcast : (matchTotal a b : ℚ) ≤ (a.length : ℚ) ∧
        (matchTotal a b : ℚ) ≤ (b.length : ℚ) := by
      constructor <;> exact_mod_cast (by omega : matchTotal a b ≤ _)
    linarith [hcast.1, hcast.2]

/-- C7 (amended): the score is always in the interval between 0 and 1; when
the upper-cased query is a literal substring of the upper-cased candidate
the score is floored at 0.85; the boost never lowers the computed ratio
(the score is always at least the `SequenceMatcher` ratio).  There is no
reverse boost: a candidate that is a substring of the query receives no
floor (see the counterexample). -/
theorem C7_score_bounds (q c : String) :
    0 ≤ fuzzyScore q c ∧ fuzzyScore q c ≤ 1 ∧
    (substrB (upperL q.toList) (upperL c.toList) = true →
      85 / 100 ≤ fuzzyScore q c) ∧
    pyRatio (upperL q.toList) (upperL c.toList) ≤ fuzzyScore q c := by
  unfold fuzzyScore
  by_cases hsub : substrB (upperL q.toList) (upperL c.toList) = true
  · rw [if_pos hsub]
    refine ⟨?_, ?_, ?_, ?_⟩
    · exact le_trans (pyRatio_nonneg _ _) (le_max_left _ _)
    · exact max_le (pyRatio_le_one _ _) (by norm_num)
    · intro _
      exact le_max_right _ _
    · exact le_max_left _ _
  · rw [if_neg hsub]
    exact ⟨pyRatio_nonneg _ _, pyRatio_le_one _ _,
      fun hs => absurd hs hsub, le_refl _⟩

/-- Witness: a genuine substring query is floored at 0.85, and a
non-substring pair stays inside the unit interval. -/
theorem C7_witness :
    85 / 100 ≤ fuzzyScore "SAID" "SAID ANCHORAGE" ∧
    0 ≤ fuzzyScore "SAID" "AI" ∧ fuzzyScore "SAID" "AI" ≤ 1 :=
  ⟨(C7_score_bounds "SAID" "SAID ANCHORAGE").2.2.1 (by decide),
   (C7_score_bounds "SAID" "AI").1,
   (C7_score_bounds "SAID" "AI").2.1⟩

/-- Counterexample to C7 as stated: `AI` is a substring of the query
`SAID` (the "vice versa" case for a short query), yet the score is the raw
ratio 2/3, below the claimed 0.85 floor. -/
theorem C7_counterexample :
    substrB (upperL "AI".toList) (upperL "SAID".toList) = true ∧
    fuzzyScore "SAID" "AI" = 2 / 3 ∧
    fuzzyScore "SAID" "AI" < 85 / 100 := by
  have h1 : upperL "SAID".toList = "SAID".toList := by decide
  have h2 : upperL "AI".toList = "AI".toList := by decide
  have hm : matchTotal "SAID".toList "AI".toList = 2 := by decide
  have hsub : substrB "SAID".toList "AI".toList = false := by decide
  have hval : fuzzyScore "SAID" "AI" = 2 / 3 := by
    unfold fuzzyScore pyRatio
    rw [h1, h2, hm, hsub]
    norm_num
  refine ⟨by decide, hval, ?_⟩
  rw [hval]
  norm_num

/-!  ## Claim C8: stage thresholds and tie-breaking -/

theorem head_insDesc (x : PortRec × ℚ) (s : List (PortRec × ℚ)) :
    (insDesc x s).head? = some (match s.head? with
      | none => x
      | some y => if y.2 ≤ x.2 then x else y) := by
  cases s with
  | nil => rfl
  | cons y ys =>
    simp only [insDesc, List.head?_cons]
    by_cases h : y.2 ≤ x.2
    · rw [if_pos h, if_pos h]
      rfl
    · rw [if_neg h, if_neg h]
      rfl

theorem sortScored_head (q : String) (θ : ℚ) :
    ∀ (space : List PortRec),
      (∀ x, (sortDesc (fuzzyScored q θ space)).head? = some x →
        x.2 = fuzzyScore q x.1.port ∧ θ ≤ x.2 ∧
        (∀ p ∈ space, fuzzyScore q p.port ≤ x.2) ∧
        ∃ l1 l2, space = l1 ++ x.1 :: l2 ∧
          ∀ p ∈ l1, fuzzyScore q p.port < x.2) ∧
      ((sortDesc (fuzzyScored q θ space)).head? = none →
        ∀ p ∈ space, fuzzyScore q p.port < θ) := by
  intro space
  induction space with
  | nil =>
    constructor
    · intro x hx
      cases hx
    · intro _ p hp
      cases hp
  | cons p l ih =>
    have hrec : fuzzyScored q θ (p :: l) =
        if θ ≤ fuzzyScore q p.port then
          (p, fuzzyScore q p.port) :: fuzzyScored q θ l
        else fuzzyScored q θ l := by
      simp only [fuzzyScored, List.filterMap_cons]
      by_cases hθ : θ ≤ fuzzyScore q p.port
      · rw [if_pos hθ, if_pos hθ]
      · rw [if_neg hθ, if_neg hθ]
    by_cases hθ : θ ≤ fuzzyScore q p.port
    · rw [if_pos hθ] at hrec
      have hsort : sortDesc (fuzzyScored q θ (p :: l)) =
          insDesc (p, fuzzyScore q p.port) (sortDesc (fuzzyScored q θ l)) := by
        rw [hrec]
        rfl
      rw [hsort]
      cases hprev : (sortDesc (fuzzyScored q θ l)).head? with
      | none =>
        have hhead := head_insDesc (p, fuzzyScore q p.port)
          (sortDesc (fuzzyScored q θ l))
        rw [hprev] at hhead
        simp only [] at hhead
        constructor
        · intro x hx
          rw [hhead, Option.some_inj] at hx
          subst hx
          refine ⟨rfl, hθ, ?_, [], l, rfl, by simp⟩
          intro r hr
          rcases List.mem_cons.mp hr with hre | hre
          · subst hre
            exact le_refl _
          · exact le_of_lt (lt_of_lt_of_le (ih.2 hprev r hre) hθ)
        · intro hx
          rw [hhead] at hx
          cases hx
      | some y =>
        obtain ⟨hy2, hyθ, hymax, l1, l2, hsplit, hl1⟩ := ih.1 y hprev
        have hhead := head_insDesc (p, fuzzyScore q p.port)
          (sortDesc (fuzzyScored q θ l))
        rw [hprev] at hhead
        simp only [] at hhead
        constructor
        · intro x hx
          rw [hhead, Option.some_inj] at hx
          by_cases hle : y.2 ≤ fuzzyScore q p.port
          · rw [if_pos hle] at hx
            subst hx
            refine ⟨rfl, hθ, ?_, [], l, rfl, by simp⟩
            intro r hr
            rcases List.mem_cons.mp hr with hre | hre
            · subst hre
              exact le_refl _
            · exact le_trans (hymax r hre) hle
          · rw [if_neg hle] at hx
            subst hx
            push_neg at hle
            refine ⟨hy2, hyθ, ?_, p :: l1, l2, by rw [hsplit]; rfl, ?_⟩
            · intro r hr
              rcases List.mem_cons.mp hr with hre | hre
              · subst hre
                exact le_of_lt hle
              · exact hymax r hre
            · intro r hr
              rcases List.mem_cons.mp hr with hre | hre
              · subst hre
                exact hle
              · exact hl1 r hre
        · intro hx
          rw [hhead] at hx
          cases hx
    · rw [if_neg hθ] at hrec
      have hsort : sortDesc (fuzzyScored q θ (p :: l)) =
          sortDesc (fuzzyScored q θ l) := by rw [hrec]
      rw [hsort]
      push_neg at hθ
      constructor
      · intro x hx
        obtain ⟨hx2, hxθ, hxmax, l1, l2, hsplit, hl1⟩ := ih.1 x hx
        refine ⟨hx2, hxθ, ?_, p :: l1, l2, by rw [hsplit]; rfl, ?_⟩
        · intro r hr
          rcases List.mem_cons.mp hr with hre | hre
          · subst hre
            exact le_of_lt (lt_of_lt_of_le hθ hxθ)
          · exact hxmax r hre
        · intro r hr
          rcases List.mem_cons.mp hr with hre | hre
          · subst hre
            exact lt_of_lt_of_le hθ hxθ
          · exact hl1 r hre
      · intro hx r hr
        rcases List.mem_cons.mp hr with hre | hre
        · subst hre
          exact hθ
        · exact ih.2 hx r hre

/-- C8: Stage C accepts the best-scoring record of the resolved country's
bucket at threshold 0.65, Stage D the best-scoring record of the whole
registry at threshold 0.75; in both stages the winner has maximal score,
every strictly earlier record in dataset order scores strictly lower (ties
are broken by insertion order), and when no record clears the threshold the
stage yields nothing and indeed every candidate scores below it. -/
theorem C8_fuzzy_thresholds (reg : Registry) (cn portText cleaned : String) :
    (∀ r, stageC reg cn portText = some r →
      (65 : ℚ) / 100 ≤ fuzzyScore portText r.port ∧
      (∀ p ∈ reg.filter (fun p => pyUpper p.country == cn),
        fuzzyScore portText p.port ≤ fuzzyScore portText r.port) ∧
      ∃ l1 l2, reg.filter (fun p => pyUpper p.country == cn) = l1 ++ r :: l2 ∧
        ∀ p ∈ l1, fuzzyScore portText p.port < fuzzyScore portText r.port) ∧
    (stageC reg cn portText = none →
      ∀ p ∈ reg.filter (fun p => pyUpper p.country == cn),
        fuzzyScore portText p.port < 65 / 100) ∧
    (∀ r, stageD reg cleaned = some r →
      (75 : ℚ) / 100 ≤ fuzzyScore cleaned r.port ∧
      (∀ p ∈ reg, fuzzyScore cleaned p.port ≤ fuzzyScore cleaned r.port) ∧
      ∃ l1 l2, reg = l1 ++ r :: l2 ∧
        ∀ p ∈ l1, fuzzyScore cleaned p.port < fuzzyScore cleaned r.port) ∧
    (stageD reg cleaned = none →
      ∀ p ∈ reg, fuzzyScore cleaned p.port < 75 / 100) := by
  have hC : stageC reg cn portText =
      ((sortDesc (fuzzyScored portText (65 / 100)
        (reg.filter (fun p => pyUpper p.country == cn)))).map Prod.fst).head? :=
    rfl
  have hD : stageD reg cleaned =
      ((sortDesc (fuzzyScored cleaned (75 / 100) reg)).map Prod.fst).head? :=
    rfl
  refine ⟨?_, ?_, ?_, ?_⟩
  · intro r h
    rw [hC, List.head?_map] at h
    cases hx : (sortDesc (fuzzyScored portText (65 / 100)
        (reg.filter (fun p => pyUpper p.country == cn)))).head? with
    | none =>
      rw [hx] at h
      cases h
    | some x =>
      rw [hx] at h
      have h : x.1 = r := Option.some.inj h
      obtain ⟨hx2, hxθ, hxmax, l1, l2, hsplit, hl1⟩ :=
        (sortScored_head portText (65 / 100)
          (reg.filter (fun p => pyUpper p.country == cn))).1 x hx
      rw [← h]
      rw [hx2] at hxθ hxmax hl1
      exact ⟨hxθ, hxmax, l1, l2, hsplit, hl1⟩
  · intro h
    rw [hC, List.head?_map] at h
    cases hx : (sortDesc (fuzzyScored portText (65 / 100)
        (reg.filter (fun p => pyUpper p.country == cn)))).head? with
    | none =>
      exact (sortScored_head portText (65 / 100)
        (reg.filter (fun p => pyUpper p.country == cn))).2 hx
    | some x =>
      rw [hx] at h
      cases h
  · intro r h
    rw [hD, List.head?_map] at h
    cases hx : (sortDesc (fuzzyScored cleaned (75 / 100) reg)).head? with
    | none =>
      rw [hx] at h
      cases h
    | some x =>
      rw [hx] at h
      have h : x.1 = r := Option.some.inj h
      obtain ⟨hx2, hxθ, hxmax, l1, l2, hsplit, hl1⟩ :=
        (sortScored_head cleaned (75 / 100) reg).1 x hx
      rw [← h]
      rw [hx2] at hxθ hxmax hl1
      exact ⟨hxθ, hxmax, l1, l2, hsplit, hl1⟩
  · intro h
    rw [hD, List.head?_map] at h
    cases hx : (sortDesc (fuzzyScored cleaned (75 / 100) reg)).head? with
    | none => exact (sortScored_head cleaned (75 / 100) reg).2 hx
    | some x =>
      rw [hx] at h
      cases h

/-- Witness: on a one-record registry the strict global stage accepts a
substring query via the 0.85 floor, and on the empty registry the loose
country stage rejects vacuously. -/
theorem C8_witness :
    stageD [victoriaARec] "VIC" = some victoriaARec ∧
    (75 : ℚ) / 100 ≤ fuzzyScore "VIC" victoriaARec.port ∧
    stageC [] "X" "Y" = none ∧
    (∀ p ∈ ([] : Registry).filter (fun p => pyUpper p.country == "X"),
      fuzzyScore "Y" p.port < 65 / 100) := by
  have hsub : substrB (upperL "VIC".toList) (upperL "Victoria".toList) = true := by
    decide
  have hge : (75 : ℚ) / 100 ≤ fuzzyScore "VIC" victoriaARec.port := by
    show (75 : ℚ) / 100 ≤ fuzzyScore "VIC" "Victoria"
    unfold fuzzyScore
    rw [if_pos hsub]
    exact le_trans (by norm_num) (le_max_right _ _)
  have hD : stageD [victoriaARec] "VIC" = some victoriaARec := by
    unfold stageD fuzzy_match_port_name fuzzyScored
    simp only [List.filterMap_cons, List.filterMap_nil]
    rw [if_pos hge]
    rfl
  refine ⟨hD,
    ((C8_fuzzy_thresholds [victoriaARec] "X" "Y" "VIC").2.2.1
      victoriaARec hD).1, rfl, ?_⟩
  exact (C8_fuzzy_thresholds [] "X" "Y" "Z").2.1 rfl

/-!  ## Claim C9: ship-type normalization -/

/-- C9: `normalizeShipType` always returns one of `mt`, `tug`, `mv`,
`others`; falsy input (nullish or the empty string) yields `others`; a
tanker keyword forces `mt` regardless of the other buckets, a tug keyword
forces `tug` when no tanker keyword is present, and a merchant-vessel
keyword yields `mv` only when neither earlier bucket fires; in particular
a type containing both `gas` and `cargo` is classified `mt`. -/
theorem C9_ship_type (rawType : Option String) :
    (normalizeShipType rawType = "mt" ∨ normalizeShipType rawType = "tug" ∨
     normalizeShipType rawType = "mv" ∨
     normalizeShipType rawType = "others") ∧
    normalizeShipType none = "others" ∧
    normalizeShipType (some "") = "others" ∧
    (∀ s, s ≠ "" →
      tankerKeywords.any
        (fun kw => substrB kw.toList (pyLower s).toList) = true →
      normalizeShipType (some s) = "mt") ∧
    (∀ s, s ≠ "" →
      tankerKeywords.any
        (fun kw => substrB kw.toList (pyLower s).toList) = false →
      tugKeywords.any
        (fun kw => substrB kw.toList (pyLower s).toList) = true →
      normalizeShipType (some s) = "tug") ∧
    (∀ s, s ≠ "" →
      tankerKeywords.any
        (fun kw => substrB kw.toList (pyLower s).toList) = false →
      tugKeywords.any
        (fun kw => substrB kw.toList (pyLower s).toList) = false →
      mvKeywords.any
        (fun kw => substrB kw.toList (pyLower s).toList) = true →
      normalizeShipType (some s) = "mv") ∧
    normalizeShipType (some "Gas Cargo Carrier") = "mt" := by
  refine ⟨?_, rfl, rfl, ?_, ?_, ?_, by decide⟩
  · cases rawType with
    | none => exact Or.inr (Or.inr (Or.inr rfl))
    | some s =>
      unfold normalizeShipType
      simp only []
      by_cases h0 : s = ""
      · rw [if_pos h0]
        exact Or.inr (Or.inr (Or.inr rfl))
      · rw [if_neg h0]
        by_cases h1 : tankerKeywords.any
            (fun kw => substrB kw.toList (pyLower s).toList) = true
        · rw [if_pos h1]
          exact Or.inl rfl
        · rw [if_neg h1]
          by_cases h2 : tugKeywords.any
              (fun kw => substrB kw.toList (pyLower s).toList) = true
          · rw [if_pos h2]
            exact Or.inr (Or.inl rfl)
          · rw [if_neg h2]
            by_cases h3 : mvKeywords.any
                (fun kw => substrB kw.toList (pyLower s).toList) = true
            · rw [if_pos h3]
              exact Or.inr (Or.inr (Or.inl rfl))
            · rw [if_neg h3]
              exact Or.inr (Or.inr (Or.inr rfl))
  · intro s h0 h1
    unfold normalizeShipType
    simp only []
    rw [if_neg h0, if_pos h1]
  · intro s h0 h1 h2
    have h1' : ¬ (tankerKeywords.any
        (fun kw => substrB kw.toList (pyLower s).toList) = true) := by
      rw [h1]
      decide
    unfold normalizeShipType
    simp only []
    rw [if_neg h0, if_neg h1', if_pos h2]
  · intro s h0 h1 h2 h3
    have h1' : ¬ (tankerKeywords.any
        (fun kw => substrB kw.toList (pyLower s).toList) = true) := by
      rw [h1]
      decide
    have h2' : ¬ (tugKeywords.any
        (fun kw => substrB kw.toList (pyLower s).toList) = true) := by
      rw [h2]
      decide
    unfold normalizeShipType
    simp only []
    rw [if_neg h0, if_neg h1', if_neg h2', if_pos h3]

/-- Witness: one concrete type per category, with every precedence
hypothesis discharged by evaluation. -/
theorem C9_witness :
    normalizeShipType (some "Oil Tanker") = "mt" ∧
    normalizeShipType (some "Tractor Tug") = "tug" ∧
    normalizeShipType (some "Bulk Carrier") = "mv" ∧
    normalizeShipType none = "others" :=
  ⟨(C9_ship_type (some "Oil Tanker")).2.2.2.1 "Oil Tanker"
      (by decide) (by decide),
   (C9_ship_type (some "Tractor Tug")).2.2.2.2.1 "Tractor Tug"
      (by decide) (by decide) (by decide),
   (C9_ship_type (some "Bulk Carrier")).2.2.2.2.2.1 "Bulk Carrier"
      (by decide) (by decide) (by decide) (by decide),
   (C9_ship_type none).2.1⟩

/-!  ## Claim C10: batch cache partition -/

theorem getBatchStep_some {α : Type} (cache : String → Option α)
    (acc : BatchResult α) (i : String) (v : α) (hc : cache i = some v) :
    getBatchStep cache acc i =
      { acc with cached := jsAssign acc.cached i v } := by
  unfold getBatchStep
  rw [hc]

theorem getBatchStep_none {α : Type} (cache : String → Option α)
    (acc : BatchResult α) (i : String) (hc : cache i = none) :
    getBatchStep cache acc i =
      { acc with missing := acc.missing ++ [i] } := by
  unfold getBatchStep
  rw [hc]

theorem jsAssign_fresh {α : Type} (k : String) (v : α) :
    ∀ l : List (String × α), (∀ p ∈ l, p.1 ≠ k) →
      jsAssign l k v = l ++ [(k, v)] := by
  intro l
  induction l with
  | nil => intro _; rfl
  | cons p rest ih =>
    intro h
    cases p with
    | mk k0 v0 =>
      unfold jsAssign
      rw [if_neg (h (k0, v0) (List.mem_cons_self _ _))]
      rw [ih (fun q hq => h q (List.mem_cons_of_mem _ hq))]
      rfl

theorem getBatch_go {α : Type} (cache : String → Option α) :
    ∀ (imos : List String) (acc : BatchResult α),
      imos.Nodup → (∀ i ∈ imos, ∀ p ∈ acc.cached, p.1 ≠ i) →
      imos.foldl (getBatchStep cache) acc =
        ⟨acc.cached ++
          imos.filterMap (fun i => (cache i).map (fun v => (i, v))),
         acc.missing ++ imos.filter (fun i => !(cache i).isSome)⟩ := by
  intro imos
  induction imos with
  | nil =>
    intro acc _ _
    simp
  | cons i rest ih =>
    intro acc hnd hfresh
    have hi : i ∉ rest := (List.nodup_cons.mp hnd).1
    have hrest : rest.Nodup := (List.nodup_cons.mp hnd).2
    rw [List.foldl_cons]
    cases hc : cache i with
    | some v =>
      rw [getBatchStep_some cache acc i v hc,
        jsAssign_fresh i v acc.cached
          (fun p hp => hfresh i (List.mem_cons_self i rest) p hp)]
      have hfresh' : ∀ j ∈ rest,
          ∀ p ∈ (acc.cached ++ [(i, v)]), p.1 ≠ j := by
        intro j hj p hp
        rcases List.mem_append.mp hp with hp1 | hp2
        · exact hfresh j (List.mem_cons_of_mem i hj) p hp1
        · have hpv : p = (i, v) := List.mem_singleton.mp hp2
          rw [hpv]
          intro hcontra
          have hij : i = j := hcontra
          exact hi (by rw [hij]; exact hj)
      rw [ih { acc with cached := acc.cached ++ [(i, v)] } hrest hfresh']
      simp [List.filterMap_cons, List.filter_cons, hc, List.append_assoc]
    | none =>
      rw [getBatchStep_none cache acc i hc]
      have hfresh' : ∀ j ∈ rest, ∀ p ∈ acc.cached, p.1 ≠ j :=
        fun j hj p hp => hfresh j (List.mem_cons_of_mem i hj) p hp
      rw [ih { acc with missing := acc.missing ++ [i] } hrest hfresh']
      simp [List.filterMap_cons, List.filter_cons, hc, List.append_assoc]

theorem map_fst_filterMap {α : Type} (cache : String → Option α) :
    ∀ imos : List String,
      (imos.filterMap (fun i => (cache i).map (fun v => (i, v)))).map
          Prod.fst
        = imos.filter (fun i => (cache i).isSome) := by
  intro imos
  induction imos with
  | nil => rfl
  | cons i rest ih =>
    cases hc : cache i with
    | some v => simp [List.filterMap_cons, List.filter_cons, hc, ih]
    | none => simp [List.filterMap_cons, List.filter_cons, hc, ih]

/-- C10 (amended): for every list of DISTINCT IMO numbers, `getBatch`
partitions the request: `cached` holds exactly the hit IMOs paired with
their cached values in request order, `missing` exactly the miss IMOs in
request order; the cached keys followed by the missing entries are a
permutation of the request without duplicates, so each requested IMO
appears exactly once, never in both lists and never dropped; each hit IMO
is a cached key and not missing, each miss IMO is missing and not a cached
key; and on a Redis failure the result degrades to an empty cached map
with every requested IMO missing.  (With duplicated requests the claim
fails: see the counterexample.) -/
theorem C10_batch_partition {α : Type} (cache : String → Option α)
    (imos : List String) (hnd : imos.Nodup) :
    getBatch cache imos =
      ⟨imos.filterMap (fun i => (cache i).map (fun v => (i, v))),
       imos.filter (fun i => !(cache i).isSome)⟩ ∧
    ((getBatch cache imos).cached.map Prod.fst ++
      (getBatch cache imos).missing).Perm imos ∧
    ((getBatch cache imos).cached.map Prod.fst ++
      (getBatch cache imos).missing).Nodup ∧
    (∀ i ∈ imos, ∀ v, cache i = some v →
      (i, v) ∈ (getBatch cache imos).cached ∧
      i ∉ (getBatch cache imos).missing) ∧
    (∀ i ∈ imos, cache i = none →
      i ∈ (getBatch cache imos).missing ∧
      i ∉ (getBatch cache imos).cached.map Prod.fst) ∧
    (getBatchOnError imos : BatchResult α) = ⟨[], imos⟩ := by
  have hchar : getBatch cache imos =
      ⟨imos.filterMap (fun i => (cache i).map (fun v => (i, v))),
       imos.filter (fun i => !(cache i).isSome)⟩ := by
    unfold getBatch
    rw [getBatch_go cache imos ⟨[], []⟩ hnd
      (fun i _ p hp => absurd hp (List.not_mem_nil p))]
    rfl
  have hkeys : (getBatch cache imos).cached.map Prod.fst
      = imos.filter (fun i => (cache i).isSome) := by
    rw [hchar]
    exact map_fst_filterMap cache imos
  have hmiss : (getBatch cache imos).missing
      = imos.filter (fun i => !(cache i).isSome) := by
    rw [hchar]
  have hperm : ((getBatch cache imos).cached.map Prod.fst ++
      (getBatch cache imos).missing).Perm imos := by
    rw [hkeys, hmiss]
    exact List.filter_append_perm (fun i => (cache i).isSome) imos
  refine ⟨hchar, hperm, hperm.nodup_iff.mpr hnd, ?_, ?_, rfl⟩
  · intro i hi v hv
    constructor
    · rw [hchar]
      exact List.mem_filterMap.mpr ⟨i, hi, by rw [hv]; rfl⟩
    · rw [hmiss]
      intro hmem
      have hp := List.of_mem_filter hmem
      rw [hv] at hp
      exact absurd hp (by simp)
  · intro i hi hv
    constructor
    · rw [hmiss]
      refine List.mem_filter.mpr ⟨hi, ?_⟩
      rw [hv]
      rfl
    · rw [hkeys]
      intro hmem
      have hp := List.of_mem_filter hmem
      rw [hv] at hp
      exact absurd hp (by simp)

/-- Witness: a two-IMO request with one hit and one miss, partitioned as
the theorem states. -/
theorem C10_witness :
    (["123", "456"] : List String).Nodup ∧
    getBatch (fun i => if i = "123" then some (1 : Nat) else none)
      ["123", "456"] = ⟨[("123", 1)], ["456"]⟩ ∧
    ((getBatch (fun i => if i = "123" then some (1 : Nat) else none)
        ["123", "456"]).cached.map Prod.fst ++
      (getBatch (fun i => if i = "123" then some (1 : Nat) else none)
        ["123", "456"]).missing).Perm ["123", "456"] := by
  have hnd : (["123", "456"] : List String).Nodup := by decide
  have h := C10_batch_partition
    (fun i => if i = "123" then some (1 : Nat) else none) ["123", "456"] hnd
  refine ⟨hnd, ?_, h.2.1⟩
  rw [h.1]
  decide

/-- Counterexample to C10 as stated: a duplicated miss IMO is pushed onto
`missing` twice, so a requested IMO does not appear exactly once. -/
theorem C10_counterexample :
    getBatch (fun _ => (none : Option Nat)) ["9626390", "9626390"]
      = ⟨[], ["9626390", "9626390"]⟩ ∧
    (getBatch (fun _ => (none : Option Nat))
      ["9626390", "9626390"]).missing.count "9626390" = 2 := by
  decide
